import Mathlib

/-!
# Verification of the commlib-rs hierarchical hash-wheel timer with cancellation

This file gives a shallow embedding of the cancellable four-level hash wheel
timer of `src/commlib-sys/src/hash_wheel_timer/wheels/cancellable.rs`, of
`DataTable::get` from `src/commlib-sys/src/data_schema.rs`, and of
`ConfigManager::reload_tables` from `src/commlib-sys-test/src/config_manager.rs`,
together with theorems settling the specification claims about them.

The inner quad wheel (`wheels/quad_wheel.rs`) and byte wheel are not part of
the available sources (only the cancellable wrapper and its tests are), so the
quad-wheel operations below are modelled from the specification, as noted in
their doc comments.

Conventions of the embedding:
* One tick is one millisecond; delays are `Nat` (whole milliseconds, the
  `Duration` truncation of the source happens before our model).
* `std::sync::Arc`/`Weak` are modelled by allocation identifiers (`Nat`);
  a heap maps an allocation id to its entry, and a weak handle can be
  upgraded exactly when a strong handle still exists (in the `timers`
  side-table, in the caller's hands, or in the result list being built).
* The pruner `rc_prune` is a boolean predicate: `true` = `PruneDecision::Keep`.
-/

namespace Commlib

/-! ## Association-list helpers, modelling `hashbrown::HashMap` with unique keys -/

def lookupKey {α β : Type} [DecidableEq α] (l : List (α × β)) (k : α) : Option β :=
  match l with
  | [] => none
  | (k2, v) :: rest => if k2 = k then some v else lookupKey rest k

def eraseKey {α β : Type} [DecidableEq α] (l : List (α × β)) (k : α) : List (α × β) :=
  match l with
  | [] => []
  | (k2, v) :: rest => if k2 = k then eraseKey rest k else (k2, v) :: eraseKey rest k

/-- A timer entry as used by the `u64_tests` of `cancellable.rs`
(`IdOnlyTimerEntry`): a unique id together with a delay in whole
milliseconds. -/
structure Entry where
  id : Nat
  delay : Nat
deriving DecidableEq

/-- `TimerError` of the timer surface: `Expired` carries the offending
entry back to the caller, `NotFound` reports cancellation of an unknown id. -/
inductive TimerError (α : Type) where
  | expired (e : α)
  | notFound
deriving DecidableEq

/-- `Skip` as returned by `can_skip`: `empty` = the whole timer is empty,
`millis m` = the next `m` ticks are guaranteed free of expiries,
`now` (the source's `Skip::None`) = an entry may fire on the very next tick. -/
inductive Skip where
  | empty
  | millis (m : Nat)
  | now
deriving DecidableEq

/-! ## The quad wheel with overflow

Modelled from the spec: §4.1 (byte wheel) and §4.2 (quad wheel with overflow)
of the specification; the source file `wheels/quad_wheel.rs` is not among the
available sources.  A wheel entry is `(allocId, fire)` where `fire` is the
absolute tick at which the entry expires; this is equivalent to the spec's
slot-offset plus lower-"rest"-bytes representation, since level, slot and rest
are all recovered from `fire` and the current tick counter (level = highest
byte in which `fire` differs from the counter, slot = that byte of `fire`,
rest = the lower bytes of `fire`).  Placing by the highest differing byte of
the absolute expiry tick realizes §3's placement invariant at every tick
counter, which the spec demands (§8 I1) and which the byte-of-the-delay
paraphrase in §4.2 only matches when the lower bytes of the counter are zero. -/

/-- A wheel entry: allocation id together with the absolute expiry tick. -/
abbrev WEntry := Nat × Nat

/-- The `k`-th byte of the tick counter `t` (little-endian, `k < 4`). -/
def byteOf (t : Nat) : Nat → Nat
  | 0 => t % 256
  | 1 => t / 256 % 256
  | 2 => t / 65536 % 256
  | 3 => t / 16777216 % 256
  | _ + 4 => 0

/-- The wheel level an entry expiring at tick `f` occupies at counter `t`:
the highest byte position in which `f` and `t` differ (0 if they agree on
bytes 1..3). -/
def level (t f : Nat) : Nat :=
  if byteOf t 3 ≠ byteOf f 3 then 3
  else if byteOf t 2 ≠ byteOf f 2 then 2
  else if byteOf t 1 ≠ byteOf f 1 then 1
  else 0

/-- Functional update of one slot of a byte wheel. -/
def setSlot (w : Nat → List WEntry) (j : Nat) (v : List WEntry) : Nat → List WEntry :=
  fun i => if i = j then v else w i

/-- Modelled from the spec: state of the quad wheel with overflow (§3).
Four byte wheels (each a map from slot index `0..255` to the bag of entries
in that slot), the total elapsed tick count (whose four low bytes are the
current indices `i0..i3` of the four wheels), and the overflow list of
entries scheduled `≥ 2^32` ticks ahead (stored with their absolute tick). -/
structure QuadState where
  w0 : Nat → List WEntry
  w1 : Nat → List WEntry
  w2 : Nat → List WEntry
  w3 : Nat → List WEntry
  time : Nat
  overflow : List WEntry

attribute [ext] QuadState

/-- The byte wheel of a given level. -/
def QuadState.wheelAt (s : QuadState) : Nat → (Nat → List WEntry)
  | 0 => s.w0
  | 1 => s.w1
  | 2 => s.w2
  | _ => s.w3

/-- Replace the byte wheel of a given level. -/
def QuadState.setWheel (s : QuadState) (k : Nat) (w : Nat → List WEntry) : QuadState :=
  match k with
  | 0 => { s with w0 := w }
  | 1 => { s with w1 := w }
  | 2 => { s with w2 := w }
  | _ => { s with w3 := w }

/-- The fresh, empty quad wheel (`QuadWheelWithOverflow::new`). -/
def qnew : QuadState :=
  { w0 := fun _ => [], w1 := fun _ => [], w2 := fun _ => [], w3 := fun _ => [],
    time := 0, overflow := [] }

/-- Modelled from the spec: place an entry with absolute expiry tick `e.2`
(same 2^32-epoch as `s.time`, strictly in the future) into the wheel level
of the highest byte in which `e.2` differs from the counter, at the slot
given by that byte of `e.2` (§4.2 step 4). -/
def insertAbs (s : QuadState) (e : WEntry) : QuadState :=
  let k := level s.time e.2
  let j := byteOf e.2 k
  s.setWheel k (setSlot (s.wheelAt k) j (s.wheelAt k j ++ [e]))

/-- Modelled from the spec: `insert_with_delay` of the quad wheel (§4.2):
zero delay fails with `Expired` returning the entry; a delay of `2^32` or
more goes to the overflow list; otherwise the entry is placed in the wheels. -/
def insertWithDelay (s : QuadState) (a : Nat) (d : Nat) :
    Except (TimerError Nat) Unit × QuadState :=
  if d = 0 then (.error (.expired a), s)
  else if 4294967296 ≤ d then
    (.ok (), { s with overflow := s.overflow ++ [(a, s.time + d)] })
  else (.ok (), insertAbs s (a, s.time + d))

/-- Modelled from the spec: re-place each entry drained from a level-`k` slot
(`modk = 256^k`).  The pruner is consulted at re-insertion; a kept entry whose
remaining lower bytes are zero (`e.2 % 256^k = 0`, i.e. it expires at the
current tick) joins the expiry set, every other kept entry is re-placed into
the lower wheels (§4.2 tick steps 3-4). -/
def reinsertAll (p : Nat → Bool) (modk : Nat) :
    List WEntry → QuadState → List WEntry × QuadState
  | [], s => ([], s)
  | e :: rest, s =>
    if p e.1 then
      if e.2 % modk = 0 then
        (e :: (reinsertAll p modk rest s).1, (reinsertAll p modk rest s).2)
      else reinsertAll p modk rest (insertAbs s e)
    else reinsertAll p modk rest s

/-- Modelled from the spec: cascade of level `k` (`modk = 256^k`): drain the
newly-current slot of wheel `k` and re-place its contents (§3 cascade
invariant, §4.2 tick step 3). -/
def cascadeAt (p : Nat → Bool) (k : Nat) (modk : Nat) (s : QuadState) :
    List WEntry × QuadState :=
  let j := byteOf s.time k
  let l := s.wheelAt k j
  reinsertAll p modk l (s.setWheel k (setSlot (s.wheelAt k) j []))

/-- Modelled from the spec: promotion of overflow entries once a full
2^32-tick revolution completes (§4.2 tick step 5).  Entries the pruner drops
are discarded; an entry whose absolute tick has been reached expires now;
an entry now within 2^32 ticks is placed into the wheels; the rest stay in
the overflow list. -/
def promoteList (p : Nat → Bool) :
    List WEntry → QuadState → List WEntry × QuadState
  | [], s => ([], s)
  | e :: rest, s =>
    if p e.1 then
      if e.2 ≤ s.time then
        (e :: (promoteList p rest s).1, (promoteList p rest s).2)
      else if e.2 < s.time + 4294967296 then
        promoteList p rest (insertAbs s e)
      else
        ((promoteList p rest s).1,
          { (promoteList p rest s).2 with
              overflow := (promoteList p rest s).2.overflow ++ [e] })
    else promoteList p rest s

/-- Modelled from the spec: scan the whole overflow list for promotion. -/
def scanOverflow (p : Nat → Bool) (s : QuadState) : List WEntry × QuadState :=
  promoteList p s.overflow { s with overflow := [] }

/-- Modelled from the spec: `tick` of the quad wheel (§4.2): advance the
counter by one, drain the now-current `W0` slot through the pruner as the
base expiry set, and cascade each higher wheel whose lower neighbour wrapped;
when the whole 2^32 cycle wraps, scan the overflow list. -/
def qtick (p : Nat → Bool) (s : QuadState) : List WEntry × QuadState :=
  let t := s.time + 1
  let exp0 := (s.w0 (t % 256)).filter (fun e => p e.1)
  let s0 : QuadState := { s with time := t, w0 := setSlot s.w0 (t % 256) [] }
  let r1 := if t % 256 = 0 then cascadeAt p 1 256 s0 else ([], s0)
  let r2 := if t % 65536 = 0 then cascadeAt p 2 65536 r1.2 else ([], r1.2)
  let r3 := if t % 16777216 = 0 then cascadeAt p 3 16777216 r2.2 else ([], r2.2)
  let r4 := if t % 4294967296 = 0 then scanOverflow p r3.2 else ([], r3.2)
  (exp0 ++ r1.1 ++ r2.1 ++ r3.1 ++ r4.1, r4.2)

/-- Modelled from the spec: one silently skipped tick (§4.2 `skip`): the
counter advances and every cascade caused by a wrap is performed, but no
expiry set is produced (`W0`'s slot is not drained, and would-be expiries of
the cascades are discarded — legal skips never cross any such entry). -/
def silentStep (p : Nat → Bool) (s : QuadState) : QuadState :=
  let t := s.time + 1
  let s0 : QuadState := { s with time := t }
  let s1 := if t % 256 = 0 then (cascadeAt p 1 256 s0).2 else s0
  let s2 := if t % 65536 = 0 then (cascadeAt p 2 65536 s1).2 else s1
  let s3 := if t % 16777216 = 0 then (cascadeAt p 3 16777216 s2).2 else s2
  if t % 4294967296 = 0 then (scanOverflow p s3).2 else s3

/-- Modelled from the spec: `skip(n)` advances the counter by `n` without
producing expiries (§4.2). -/
def qskip (p : Nat → Bool) : Nat → QuadState → QuadState
  | 0, s => s
  | n + 1, s => qskip p n (silentStep p s)

/-- Minimum of a list of naturals, `none` on the empty list. -/
def minList : List Nat → Option Nat
  | [] => none
  | x :: rest =>
    match minList rest with
    | none => some x
    | some y => some (min x y)

/-- Modelled from the spec: the candidate next-drain distances contributed by
wheel level `k` (`unit = 256^k`): for each of the 256 slots ahead of the
current one (circularly), if the slot is non-empty, the number of ticks until
that slot is drained.  Slot `(t/unit + c) % 256` of level `k` is drained
exactly when the counter reaches `(t/unit + c) * unit`. -/
def levelCandidates (s : QuadState) (k : Nat) (unit : Nat) : List Nat :=
  (List.range 256).filterMap (fun c0 =>
    if s.wheelAt k ((s.time / unit + (c0 + 1)) % 256) = [] then none
    else some ((s.time / unit + (c0 + 1)) * unit - s.time))

/-- Modelled from the spec: the overflow list supplies a candidate at scale
2^32 — the next epoch boundary, where promotion happens (§4.2 `can_skip`). -/
def overflowCandidates (s : QuadState) : List Nat :=
  if s.overflow = [] then []
  else [(s.time / 4294967296 + 1) * 4294967296 - s.time]

/-- All candidate next-event distances of a wheel state. -/
def allCandidates (s : QuadState) : List Nat :=
  levelCandidates s 0 1 ++ levelCandidates s 1 256 ++ levelCandidates s 2 65536 ++
    levelCandidates s 3 16777216 ++ overflowCandidates s

/-- Modelled from the spec: `can_skip` (§4.2): `Empty` when no entry lives
anywhere (no candidate at all); otherwise, with `δ` the distance to the first
possible event, `None` (here `Skip.now`) if `δ ≤ 1`, else `Millis (δ - 1)`. -/
def qcanSkip (s : QuadState) : Skip :=
  match minList (allCandidates s) with
  | none => .empty
  | some d => if d ≤ 1 then .now else .millis (d - 1)

/-- Iterated `qtick`, collecting the expiry set of every tick. -/
def qrunTicks (p : Nat → Bool) : Nat → QuadState → List (List WEntry) × QuadState
  | 0, s => ([], s)
  | n + 1, s =>
    let r := qtick p s
    let rest := qrunTicks p n r.2
    (r.1 :: rest.1, rest.2)

/-! ## The cancellable wheel (`cancellable.rs`, the available source) -/

/-- State of `QuadWheelWithOverflow<EntryType>` of `cancellable.rs`: the inner
quad wheel holds weak handles (allocation ids); `timers` maps live entry ids
to the strong handle (allocation id) owned by the timer; `heap` records, for
every allocation id ever created, the entry behind it; `ext` lists allocation
ids for which the caller retains a strong reference (`insert_ref` clones);
`next` is the next fresh allocation id. -/
structure CState where
  wheel : QuadState
  timers : List (Nat × Nat)
  heap : List (Nat × Entry)
  ext : List Nat
  next : Nat

/-- Whether the allocation `a` still has a strong reference: held by the
`timers` table, by the caller (`ext`), or by the expiry list `ys` being
assembled during the current `tick`.  This is `rc_prune`'s
`strong_count > 0` check and also the condition for `Weak::upgrade` to
succeed. -/
def strongAlive (a : Nat) (tm : List (Nat × Nat)) (ex : List Nat)
    (ys : List (Nat × Entry)) : Bool :=
  tm.any (fun q => q.2 == a) || ex.any (fun b => b == a) || ys.any (fun q => q.1 == a)

/-- The pruner closure `rc_prune` as seen by the wheel during one operation
of the cancellable wheel (no expiry list assembled yet). -/
def pruneOf (s : CState) : Nat → Bool :=
  fun a => strongAlive a s.timers s.ext []

/-- Dereference an allocation id (total with a dummy default; every
allocation id handed to the wheel is recorded in the heap). -/
def heapGet (h : List (Nat × Entry)) (a : Nat) : Entry :=
  (lookupKey h a).getD ⟨0, 0⟩

/-- `take_timer` folded over the weak handles returned by the inner wheel's
tick: upgrade each weak handle (possible iff a strong reference survives),
then remove the id from `timers` — if the id is absent (cancelled, or already
taken while another strong reference kept the entry alive), the entry is
silently dropped, otherwise it is yielded. -/
def takeAll (h : List (Nat × Entry)) (ex : List Nat) :
    List WEntry → List (Nat × Entry) → List (Nat × Nat) →
      List (Nat × Entry) × List (Nat × Nat)
  | [], ys, tm => (ys, tm)
  | e :: rest, ys, tm =>
    if strongAlive e.1 tm ex ys then
      let ent := heapGet h e.1
      match lookupKey tm ent.id with
      | some _ => takeAll h ex rest (ys ++ [(e.1, ent)]) (eraseKey tm ent.id)
      | none => takeAll h ex rest ys tm
    else takeAll h ex rest ys tm

/-- `QuadWheelWithOverflow::tick` of `cancellable.rs`: tick the inner wheel,
then `take_timer` each returned weak handle. -/
def ctick (s : CState) : List (Nat × Entry) × CState :=
  let r := qtick (pruneOf s) s.wheel
  let yt := takeAll s.heap s.ext r.1 [] s.timers
  (yt.1, { s with wheel := r.2, timers := yt.2 })

/-- `QuadWheelWithOverflow::insert` of `cancellable.rs` (insertion by value):
wrap the entry in a fresh strong handle, insert the weak handle into the
inner wheel; on success record the strong handle in `timers` (replacing any
previous entry under the same id, as `HashMap::insert` does); on failure
unwrap the handle and give the entry itself back inside `Expired`. -/
def cinsertV (e : Entry) (s : CState) : Except (TimerError Entry) Unit × CState :=
  let a := s.next
  match insertWithDelay s.wheel a e.delay with
  | (.error _, _) => (.error (.expired e), s)
  | (.ok _, w2) =>
    (.ok (), { s with wheel := w2,
                      timers := (e.id, a) :: eraseKey s.timers e.id,
                      heap := (a, e) :: s.heap,
                      next := a + 1 })

/-- `QuadWheelWithOverflow::insert_ref` of `cancellable.rs`: as `insert`, but
the caller retains a strong reference of its own (recorded in `ext`). -/
def cinsertR (e : Entry) (s : CState) : Except (TimerError Entry) Unit × CState :=
  let a := s.next
  match insertWithDelay s.wheel a e.delay with
  | (.error _, _) => (.error (.expired e), s)
  | (.ok _, w2) =>
    (.ok (), { s with wheel := w2,
                      timers := (e.id, a) :: eraseKey s.timers e.id,
                      heap := (a, e) :: s.heap,
                      ext := a :: s.ext,
                      next := a + 1 })

/-- `QuadWheelWithOverflow::cancel` of `cancellable.rs`: remove the id from
the `timers` lookup table; `NotFound` if it is absent.  The inner wheel is
not touched. -/
def ccancel (i : Nat) (s : CState) : Except (TimerError Empty) Unit × CState :=
  match lookupKey s.timers i with
  | some _ => (.ok (), { s with timers := eraseKey s.timers i })
  | none => (.error .notFound, s)

/-- `QuadWheelWithOverflow::skip` of `cancellable.rs`: delegate to the inner
wheel. -/
def cskip (n : Nat) (s : CState) : CState :=
  { s with wheel := qskip (pruneOf s) n s.wheel }

/-- `QuadWheelWithOverflow::can_skip` of `cancellable.rs`: delegate to the
inner wheel. -/
def ccanSkip (s : CState) : Skip :=
  qcanSkip s.wheel

/-- `QuadWheelWithOverflow::new` of `cancellable.rs`. -/
def cnew : CState :=
  { wheel := qnew, timers := [], heap := [], ext := [], next := 0 }

/-- The operations a caller can perform on the cancellable wheel. -/
inductive Op where
  | tick
  | skip (n : Nat)
  | cancel (i : Nat)
  | insertV (e : Entry)
  | insertR (e : Entry)
deriving DecidableEq

/-- Execute one operation, returning the entries yielded by it (non-empty
only for `tick`). -/
def execOp (s : CState) : Op → List (Nat × Entry) × CState
  | .tick => ctick s
  | .skip n => ([], cskip n s)
  | .cancel i => ([], (ccancel i s).2)
  | .insertV e => ([], (cinsertV e s).2)
  | .insertR e => ([], (cinsertR e s).2)

/-- Run a sequence of operations, concatenating everything yielded. -/
def runTrace (s : CState) : List Op → List (Nat × Entry) × CState
  | [] => ([], s)
  | o :: rest =>
    let r := execOp s o
    let r2 := runTrace r.2 rest
    (r.1 ++ r2.1, r2.2)

/-- Whether an operation inserts an entry with the given id. -/
def opInsertsId (o : Op) (i : Nat) : Bool :=
  match o with
  | .insertV e => e.id == i
  | .insertR e => e.id == i
  | _ => false

/-- Iterated `ctick`, collecting the expiry set of every tick separately. -/
def runTicksC : Nat → CState → List (List (Nat × Entry)) × CState
  | 0, s => ([], s)
  | n + 1, s =>
    let r := ctick s
    let rest := runTicksC n r.2
    (r.1 :: rest.1, rest.2)

/-! ## `DataTable` (`src/commlib-sys/src/data_schema.rs`) -/

/-- `DataTable` of `data_schema.rs` (the fields `get` reads; `rows_by_pk` is
not consulted by `get` and is omitted). -/
structure DataTable where
  name : String
  fields : List String
  rows : List (List String)
  field_index : List (String × Nat)
deriving DecidableEq

/-- `DataTable::get` of `data_schema.rs`, with the source's panics modelled
as `none`: select row `row` only when `row < rows.len() && row > 0`,
otherwise row `0`; read the row (a panic if `rows` is empty), look the column
up in `field_index` defaulting to index `0`, panic when the row is shorter
than `field_index`, and return the cell (an in-bounds `data.get` cannot fail;
the source's fallback arm returns the empty string). -/
def DataTable.get (dt : DataTable) (row : Nat) (column : String) : Option String :=
  let index_row := if row < dt.rows.length ∧ 0 < row then row else 0
  match dt.rows[index_row]? with
  | none => none
  | some data =>
    let it := (lookupKey dt.field_index column).getD 0
    if data.length < dt.field_index.length then none
    else if it < data.length then
      match data[it]? with
      | some tmp => some tmp
      | none => some ""
    else none

/-! ## `ConfigManager` (`src/commlib-sys-test/src/config_manager.rs`) -/

/-- `DataSchema` of `data_schema.rs`: a map from table name to `DataTable`. -/
structure DataSchema where
  tables : List (String × DataTable)
deriving DecidableEq

/-- A registered config table of `config_manager.rs` (`dyn ConfigTable`):
a config id together with its loaded contents. -/
structure CTable where
  cid : Nat
  rows : List (List String)
deriving DecidableEq

/-- `ConfigManager` of `config_manager.rs`: the registered tables, keyed by
config id. -/
structure ConfigManager where
  config_tables : List (Nat × CTable)
deriving DecidableEq

/-- `ConfigManager::reload_tables` of `config_manager.rs`, embedded as the
source stands: the loop over the requested names has its whole body commented
out (`//todo`), so the local `reloads` set stays empty, and the second loop —
which would clear and reload the collected tables, themselves only local
boxes — iterates over that empty set.  The manager is returned unchanged. -/
def reloadTables (m : ConfigManager) (ds : DataSchema) (tables : List String) :
    ConfigManager :=
  let reloads : List CTable := tables.foldl (fun acc _config => acc) []
  let _ := ds
  reloads.foldl (fun mgr _t => mgr) m

/-! ## Basic lemmas about the association-list helpers -/

theorem lookupKey_eraseKey_self {α β : Type} [DecidableEq α]
    (l : List (α × β)) (k : α) : lookupKey (eraseKey l k) k = none := by
  induction l with
  | nil => rfl
  | cons hd tl ih =>
    obtain ⟨k2, v⟩ := hd
    by_cases h : k2 = k <;> simp [eraseKey, lookupKey, h, ih]

theorem lookupKey_eraseKey_ne {α β : Type} [DecidableEq α]
    (l : List (α × β)) (k k2 : α) (h : k ≠ k2) :
    lookupKey (eraseKey l k) k2 = lookupKey l k2 := by
  induction l with
  | nil => rfl
  | cons hd tl ih =>
    obtain ⟨k3, v⟩ := hd
    by_cases h3 : k3 = k
    · subst h3
      simp [eraseKey, lookupKey, h, ih]
    · simp [eraseKey, lookupKey, h3, ih]

theorem eraseKey_of_lookup_none {α β : Type} [DecidableEq α]
    (l : List (α × β)) (k : α) (h : lookupKey l k = none) :
    eraseKey l k = l := by
  induction l with
  | nil => rfl
  | cons hd tl ih =>
    obtain ⟨k2, v⟩ := hd
    by_cases h2 : k2 = k
    · simp [lookupKey, h2] at h
    · simp only [lookupKey, if_neg h2] at h
      simp [eraseKey, h2, ih h]

/-- A value surviving `eraseKey` was present before. -/
theorem mem_snd_of_eraseKey {α β : Type} [DecidableEq α]
    (l : List (α × β)) (k : α) {q : α × β} (h : q ∈ eraseKey l k) : q ∈ l := by
  induction l with
  | nil => simp [eraseKey] at h
  | cons hd tl ih =>
    obtain ⟨k2, v⟩ := hd
    by_cases h2 : k2 = k
    · simp only [eraseKey, if_pos h2] at h
      exact List.mem_cons_of_mem _ (ih h)
    · simp only [eraseKey, if_neg h2, List.mem_cons] at h
      rcases h with h | h
      · exact h ▸ List.mem_cons_self _ _
      · exact List.mem_cons_of_mem _ (ih h)

/-- A successful lookup names a pair of the list. -/
theorem mem_of_lookupKey_some {α β : Type} [DecidableEq α]
    (l : List (α × β)) (k : α) {v : β} (h : lookupKey l k = some v) :
    (k, v) ∈ l := by
  induction l with
  | nil => simp [lookupKey] at h
  | cons hd tl ih =>
    obtain ⟨k2, v2⟩ := hd
    by_cases h2 : k2 = k
    · subst h2
      simp only [lookupKey, if_pos] at h
      simp only [lookupKey, reduceIte, Option.some.injEq] at h
      subst h
      exact List.mem_cons_self _ _
    · simp only [lookupKey, if_neg h2] at h
      exact List.mem_cons_of_mem _ (ih h)

/-! ## Claim C3: zero-delay rejection with entry return -/

/-- C3: for every entry whose delay is 0 whole milliseconds, `insert` (by
value) fails with the `Expired` error carrying the very entry back to the
caller, and the whole wheel state — inner wheel, `timers` side-table, heap —
is unchanged by the failed insert. -/
theorem c3_zero_delay_expired (s : CState) (e : Entry) (h : e.delay = 0) :
    cinsertV e s = (.error (.expired e), s) := by
  simp [cinsertV, insertWithDelay, h]

/-- Witness for C3 at the concrete entry of `u64_tests::single_schedule_fail`. -/
theorem c3_zero_delay_expired_witness :
    (⟨1, 0⟩ : Entry).delay = 0 ∧
      cinsertV ⟨1, 0⟩ cnew = (.error (.expired ⟨1, 0⟩), cnew) :=
  ⟨rfl, c3_zero_delay_expired cnew ⟨1, 0⟩ rfl⟩

/-! ## Claim C6: cancel succeeds iff the id is live, and touches only `timers` -/

/-- C6: `cancel(id)` returns `Ok` exactly when the id is currently a key of
the `timers` side-table, and `NotFound` otherwise (leaving the state alone);
it never reads or modifies the wheel slots — it only erases the id's strong
handle from `timers`. -/
theorem c6_cancel_iff_membership (s : CState) (i : Nat) :
    ((ccancel i s).1 = .ok () ↔ (lookupKey s.timers i).isSome = true) ∧
    ((lookupKey s.timers i).isSome = false → ccancel i s = (.error .notFound, s)) ∧
    (ccancel i s).2.wheel = s.wheel ∧
    (ccancel i s).2.timers = eraseKey s.timers i ∧
    (ccancel i s).2.heap = s.heap ∧ (ccancel i s).2.ext = s.ext := by
  cases h : lookupKey s.timers i with
  | none => simp [ccancel, h, eraseKey_of_lookup_none s.timers i h]
  | some v => simp [ccancel, h]

/-! ## Claim C8: `DataTable::get` row-0 sentinel -/

/-- The body of `DataTable::get` after row selection: read the given row
directly (`none` models the source's panics). -/
def readCell (dt : DataTable) (r : Nat) (column : String) : Option String :=
  match dt.rows[r]? with
  | none => none
  | some data =>
    let it := (lookupKey dt.field_index column).getD 0
    if data.length < dt.field_index.length then none
    else if it < data.length then
      match data[it]? with
      | some tmp => some tmp
      | none => some ""
    else none

/-- C8: for every `DataTable` with at least one row, `get(row, column)` reads
from row `row` exactly when `0 < row < rows.len()`, and from row `0` in every
other case (`row = 0` or `row ≥ rows.len()`); an out-of-range row is folded
to row 0 instead of being reported as an error. -/
theorem c8_get_row_zero_sentinel (dt : DataTable) (row : Nat) (column : String)
    (_h : 1 ≤ dt.rows.length) :
    dt.get row column =
      readCell dt (if 0 < row ∧ row < dt.rows.length then row else 0) column := by
  unfold DataTable.get readCell
  by_cases h1 : 0 < row ∧ row < dt.rows.length
  · have h2 : row < dt.rows.length ∧ 0 < row := ⟨h1.2, h1.1⟩
    simp only [if_pos h1, if_pos h2]
  · have h2 : ¬(row < dt.rows.length ∧ 0 < row) := fun hc => h1 ⟨hc.2, hc.1⟩
    simp only [if_neg h1, if_neg h2]

/-- Witness for C8 on a concrete two-row table with an out-of-range row. -/
theorem c8_get_row_zero_sentinel_witness :
    1 ≤ (DataTable.mk "t" ["k"] [["a"], ["b"]] [("k", 0)]).rows.length ∧
      (DataTable.mk "t" ["k"] [["a"], ["b"]] [("k", 0)]).get 5 "k" =
        readCell (DataTable.mk "t" ["k"] [["a"], ["b"]] [("k", 0)])
          (if 0 < 5 ∧ 5 < (DataTable.mk "t" ["k"] [["a"], ["b"]] [("k", 0)]).rows.length
           then 5 else 0) "k" :=
  ⟨by decide,
   c8_get_row_zero_sentinel (DataTable.mk "t" ["k"] [["a"], ["b"]] [("k", 0)]) 5 "k"
     (by decide)⟩

/-! ## Claim C9: `ConfigManager::reload_tables` is a stub that reloads nothing -/

theorem foldl_const {γ δ : Type} (l : List γ) (acc : δ) :
    l.foldl (fun a _ => a) acc = acc := by
  induction l generalizing acc with
  | nil => rfl
  | cons hd tl ih => exact ih acc

/-- C9 (code evaluation): as the source stands, `reload_tables` is a no-op:
the loop collecting the requested tables is commented out, so no registered
table — requested or not — is cleared or reloaded.  This contradicts the
claimed contract, which requires every registered table named in the
requested set to be cleared and reloaded from the new data schema. -/
theorem c9_reload_tables_stub (m : ConfigManager) (ds : DataSchema) (ts : List String) :
    reloadTables m ds ts = m := by
  simp [reloadTables, foldl_const]

/-! ## Claim C7: the cancelled-entry drain scenario -/

/-- The state of `u64_tests::cancel_and_drain`: insert ids 1, 2, 3 at delays
1 ms, 10 ms, 5 ms (by `insert_ref`, the caller keeping its clones), then
cancel id 2. -/
def scenarioC7 : CState :=
  (ccancel 2 (cinsertR ⟨3, 5⟩ (cinsertR ⟨2, 10⟩ (cinsertR ⟨1, 1⟩ cnew).2).2).2).2

/-- C7: from the empty cancellable wheel, after inserting ids 1, 2, 3 at
delays 1 ms, 10 ms, 5 ms and cancelling id 2, ten `tick()` calls yield, in
concatenation, exactly the entries with ids 1 and 3 in that order (total
size 2). -/
theorem c7_cancel_and_drain :
    ((runTicksC 10 scenarioC7).1.flatten).map (fun q => q.2) =
      [⟨1, 1⟩, ⟨3, 5⟩] := by
  rfl

/-! ## Claim C4: insert-then-cancel round trip -/

/-- Counterexample to C4 as stated: inserting an entry (id 1, delay 1 ms)
into the fresh wheel and cancelling it immediately is distinguishable from
never having inserted it by the result of `can_skip()`: the dead weak handle
still occupies a wheel slot, so `can_skip` answers `None` (an event may be
due next tick) instead of `Empty`. -/
theorem c4_canskip_distinguishes :
    ccanSkip ((ccancel 1 (cinsertV ⟨1, 1⟩ cnew).2).2) = .now ∧
      ccanSkip cnew = .empty ∧
      ccanSkip ((ccancel 1 (cinsertV ⟨1, 1⟩ cnew).2).2) ≠ ccanSkip cnew := by
  refine ⟨by decide, by decide, by decide⟩

/-! ## Claim C1: cancellation finality -/

theorem strongAlive_eq_false (a : Nat) (tm : List (Nat × Nat)) (ex : List Nat)
    (ys : List (Nat × Entry)) (h1 : ∀ q ∈ tm, q.2 ≠ a) (h2 : a ∉ ex)
    (h3 : ∀ q ∈ ys, q.1 ≠ a) : strongAlive a tm ex ys = false := by
  simp only [strongAlive, Bool.or_eq_false_iff, List.any_eq_false, beq_iff_eq,
    beq_eq_false_iff_ne, ne_eq]
  refine ⟨⟨fun q hq => h1 q hq, fun b hb hba => h2 (hba ▸ hb)⟩, fun q hq => h3 q hq⟩

/-- During one `tick`, if an id is absent from `timers` at the start, no
yielded entry carries that id and the id is still absent afterwards. -/
theorem takeAll_no_id (h : List (Nat × Entry)) (ex : List Nat) (ws : List WEntry)
    (i : Nat) :
    ∀ (ys : List (Nat × Entry)) (tm : List (Nat × Nat)),
      lookupKey tm i = none → (∀ q ∈ ys, q.2.id ≠ i) →
      (∀ q ∈ (takeAll h ex ws ys tm).1, q.2.id ≠ i) ∧
        lookupKey (takeAll h ex ws ys tm).2 i = none := by
  induction ws with
  | nil => intro ys tm hid hys; exact ⟨hys, hid⟩
  | cons e rest ih =>
    intro ys tm hid hys
    simp only [takeAll]
    by_cases hs : strongAlive e.1 tm ex ys = true
    · rw [if_pos hs]
      cases hl : lookupKey tm (heapGet h e.1).id with
      | some v =>
        simp only [hl]
        have hents : (heapGet h e.1).id ≠ i := by
          intro he
          rw [he, hid] at hl
          cases hl
        apply ih
        · rw [lookupKey_eraseKey_ne _ _ _ hents]
          exact hid
        · intro q hq
          rcases List.mem_append.mp hq with hq | hq
          · exact hys q hq
          · rcases List.mem_singleton.mp hq with rfl
            exact hents
      | none =>
        simp only [hl]
        exact ih ys tm hid hys
    · rw [if_neg hs]
      exact ih ys tm hid hys

/-- `tick` on the cancellable wheel yields no entry with an id absent from
`timers`, and leaves that id absent. -/
theorem ctick_no_id (s : CState) (i : Nat) (hid : lookupKey s.timers i = none) :
    (∀ q ∈ (ctick s).1, q.2.id ≠ i) ∧ lookupKey (ctick s).2.timers i = none := by
  have h := takeAll_no_id s.heap s.ext (qtick (pruneOf s) s.wheel).1 i [] s.timers hid
    (by intro q hq; cases hq)
  simpa [ctick] using h

/-- Any single operation not inserting the id keeps it absent from `timers`
and yields no entry carrying it. -/
theorem execOp_no_id (s : CState) (o : Op) (i : Nat)
    (hid : lookupKey s.timers i = none) (ho : opInsertsId o i = false) :
    (∀ q ∈ (execOp s o).1, q.2.id ≠ i) ∧
      lookupKey (execOp s o).2.timers i = none := by
  cases o with
  | tick => simpa [execOp] using ctick_no_id s i hid
  | skip n =>
    refine ⟨by simp [execOp], ?_⟩
    simpa [execOp, cskip] using hid
  | cancel j =>
    refine ⟨by simp [execOp], ?_⟩
    simp only [execOp]
    unfold ccancel
    cases hl : lookupKey s.timers j with
    | some v =>
      simp only [hl]
      by_cases hj : j = i
      · subst hj
        exact lookupKey_eraseKey_self _ _
      · rw [lookupKey_eraseKey_ne _ _ _ hj]
        exact hid
    | none =>
      simp only [hl]
      exact hid
  | insertV e =>
    have he : e.id ≠ i := by simpa [opInsertsId] using ho
    refine ⟨by simp [execOp], ?_⟩
    simp only [execOp, cinsertV]
    split
    · exact hid
    · simp only [lookupKey, if_neg he]
      rw [lookupKey_eraseKey_ne _ _ _ he]
      exact hid
  | insertR e =>
    have he : e.id ≠ i := by simpa [opInsertsId] using ho
    refine ⟨by simp [execOp], ?_⟩
    simp only [execOp, cinsertR]
    split
    · exact hid
    · simp only [lookupKey, if_neg he]
      rw [lookupKey_eraseKey_ne _ _ _ he]
      exact hid

/-- Running any operation sequence that never re-inserts the id keeps it
absent from `timers` and never yields an entry carrying it. -/
theorem runTrace_no_id (ops : List Op) :
    ∀ (s : CState) (i : Nat),
      lookupKey s.timers i = none → (∀ o ∈ ops, opInsertsId o i = false) →
      (∀ q ∈ (runTrace s ops).1, q.2.id ≠ i) ∧
        lookupKey (runTrace s ops).2.timers i = none := by
  induction ops with
  | nil =>
    intro s i hid _
    exact ⟨by simp [runTrace], hid⟩
  | cons o rest ih =>
    intro s i hid hops
    have h1 := execOp_no_id s o i hid (hops o (List.mem_cons_self _ _))
    have h2 := ih (execOp s o).2 i h1.2 (fun o2 ho2 => hops o2 (List.mem_cons_of_mem _ ho2))
    constructor
    · intro q hq
      simp only [runTrace] at hq
      rcases List.mem_append.mp hq with hq | hq
      · exact h1.1 q hq
      · exact h2.1 q hq
    · simp only [runTrace]
      exact h2.2

/-- C1: once `cancel(id)` has returned `Ok`, no subsequent operation
sequence that does not insert that id again — ticks, skips, cancels and
inserts of other ids, with any number of strong references held outside the
timer — ever makes `tick()` yield an entry with that id. -/
theorem c1_cancellation_finality (s : CState) (i : Nat) (ops : List Op)
    (_hc : (ccancel i s).1 = .ok ())
    (hops : ∀ o ∈ ops, opInsertsId o i = false) :
    ∀ q ∈ (runTrace (ccancel i s).2 ops).1, q.2.id ≠ i := by
  have hid : lookupKey (ccancel i s).2.timers i = none := by
    cases hl : lookupKey s.timers i with
    | some v =>
      simp only [ccancel, hl]
      exact lookupKey_eraseKey_self _ _
    | none =>
      simp only [ccancel, hl]
  exact (runTrace_no_id ops _ i hid hops).1

/-- The concrete state for the C1 witness: an entry with id 5 inserted by
`insert_ref` (so a strong reference survives outside the timer). -/
def c1state : CState := (cinsertR ⟨5, 3⟩ cnew).2

/-- Witness for C1: cancel id 5 (which returns `Ok`), then run four ticks
(past the entry's original expiry); nothing with id 5 is yielded. -/
theorem c1_cancellation_finality_witness :
    (ccancel 5 c1state).1 = .ok () ∧
    (∀ o ∈ [Op.tick, Op.tick, Op.tick, Op.tick], opInsertsId o 5 = false) ∧
    ∀ q ∈ (runTrace (ccancel 5 c1state).2 [Op.tick, Op.tick, Op.tick, Op.tick]).1,
      q.2.id ≠ 5 :=
  ⟨by rfl, by decide,
   c1_cancellation_finality c1state 5 [Op.tick, Op.tick, Op.tick, Op.tick]
     (by rfl) (by decide)⟩

/-! ## Claim C10: duplicate-id insert silently replaces -/

theorem mem_eraseKey_key_ne {α β : Type} [DecidableEq α]
    (l : List (α × β)) (k : α) {q : α × β} (h : q ∈ eraseKey l k) : q.1 ≠ k := by
  induction l with
  | nil => simp [eraseKey] at h
  | cons hd tl ih =>
    obtain ⟨k2, v⟩ := hd
    by_cases h2 : k2 = k
    · simp only [eraseKey, if_pos h2] at h
      exact ih h
    · simp only [eraseKey, if_neg h2, List.mem_cons] at h
      rcases h with rfl | h
      · exact h2
      · exact ih h

/-- During one `tick`, a dead allocation id — no strong handle in `timers`,
none held by the caller — cannot be upgraded: it is never yielded and the
`timers` values stay clear of it. -/
theorem takeAll_no_alloc (h : List (Nat × Entry)) (ex : List Nat) (ws : List WEntry)
    (a : Nat) (hex : a ∉ ex) :
    ∀ (ys : List (Nat × Entry)) (tm : List (Nat × Nat)),
      (∀ q ∈ tm, q.2 ≠ a) → (∀ q ∈ ys, q.1 ≠ a) →
      (∀ q ∈ (takeAll h ex ws ys tm).1, q.1 ≠ a) ∧
        (∀ q ∈ (takeAll h ex ws ys tm).2, q.2 ≠ a) := by
  induction ws with
  | nil => intro ys tm htm hys; exact ⟨hys, htm⟩
  | cons e rest ih =>
    intro ys tm htm hys
    simp only [takeAll]
    by_cases hs : strongAlive e.1 tm ex ys = true
    · rw [if_pos hs]
      have hea : e.1 ≠ a := by
        intro heq
        rw [heq, strongAlive_eq_false a tm ex ys htm hex hys] at hs
        cases hs
      cases hl : lookupKey tm (heapGet h e.1).id with
      | some v =>
        simp only [hl]
        apply ih
        · intro q hq
          exact htm q (mem_snd_of_eraseKey _ _ hq)
        · intro q hq
          rcases List.mem_append.mp hq with hq | hq
          · exact hys q hq
          · rcases List.mem_singleton.mp hq with rfl
            exact hea
      | none =>
        simp only [hl]
        exact ih ys tm htm hys
    · rw [if_neg hs]
      exact ih ys tm htm hys

/-- `tick` never yields a dead allocation id and keeps it dead. -/
theorem ctick_no_alloc (s : CState) (a : Nat)
    (htm : ∀ q ∈ s.timers, q.2 ≠ a) (hex : a ∉ s.ext) :
    (∀ q ∈ (ctick s).1, q.1 ≠ a) ∧ (∀ q ∈ (ctick s).2.timers, q.2 ≠ a) ∧
      (ctick s).2.ext = s.ext := by
  have h := takeAll_no_alloc s.heap s.ext (qtick (pruneOf s) s.wheel).1 a hex []
    s.timers htm (by simp)
  exact ⟨by simpa [ctick] using h.1, by simpa [ctick] using h.2, by simp [ctick]⟩

/-- Over any number of subsequent ticks, a dead allocation id is never
yielded. -/
theorem runTicks_no_alloc (n : Nat) :
    ∀ (s : CState) (a : Nat), (∀ q ∈ s.timers, q.2 ≠ a) → a ∉ s.ext →
      ∀ q ∈ (runTrace s (List.replicate n .tick)).1, q.1 ≠ a := by
  induction n with
  | zero =>
    intro s a _ _ q hq
    simp [runTrace] at hq
  | succ n ih =>
    intro s a htm hex q hq
    simp only [List.replicate_succ, runTrace, execOp] at hq
    rcases List.mem_append.mp hq with hq | hq
    · exact (ctick_no_alloc s a htm hex).1 q hq
    · exact ih (ctick s).2 a (ctick_no_alloc s a htm hex).2.1
        (by rw [(ctick_no_alloc s a htm hex).2.2]; exact hex) q hq

/-- C10: inserting (by value) an entry whose id is already a live key of
`timers` succeeds with no error; the new strong handle overwrites the old one
in `timers`; and — provided no strong reference to the first entry exists
outside the timer — the first entry's allocation is never yielded by any
number of subsequent `tick()` calls: its weak handle can no longer be
upgraded, so the pruner drops it. -/
theorem c10_duplicate_insert_replaces (s : CState) (e2 : Entry) (a1 : Nat) (n : Nat)
    (_hlook : lookupKey s.timers e2.id = some a1)
    (hext : a1 ∉ s.ext)
    (huniq : ∀ q ∈ s.timers, q.2 = a1 → q.1 = e2.id)
    (hfresh : a1 ≠ s.next)
    (hd : 1 ≤ e2.delay) :
    (cinsertV e2 s).1 = .ok () ∧
    lookupKey (cinsertV e2 s).2.timers e2.id = some s.next ∧
    (∀ q ∈ (cinsertV e2 s).2.timers, q.2 ≠ a1) ∧
    (∀ q ∈ (runTrace (cinsertV e2 s).2 (List.replicate n .tick)).1, q.1 ≠ a1) := by
  have hd0 : ¬(e2.delay = 0) := by omega
  obtain ⟨w2, hshape⟩ : ∃ w2, cinsertV e2 s =
      (.ok (), { s with wheel := w2,
                        timers := (e2.id, s.next) :: eraseKey s.timers e2.id,
                        heap := (s.next, e2) :: s.heap,
                        next := s.next + 1 }) := by
    refine ⟨(insertWithDelay s.wheel s.next e2.delay).2, ?_⟩
    by_cases hbig : 4294967296 ≤ e2.delay
    · simp [cinsertV, insertWithDelay, hd0, hbig]
    · simp [cinsertV, insertWithDelay, hd0, hbig]
  have htm2 : ∀ q ∈ (cinsertV e2 s).2.timers, q.2 ≠ a1 := by
    rw [hshape]
    intro q hq
    rcases List.mem_cons.mp hq with rfl | hq
    · exact fun hx => hfresh hx.symm
    · intro hx
      exact mem_eraseKey_key_ne s.timers e2.id hq (huniq q (mem_snd_of_eraseKey _ _ hq) hx)
  refine ⟨by rw [hshape], ?_, htm2, ?_⟩
  · rw [hshape]
    simp [lookupKey]
  · exact runTicks_no_alloc n (cinsertV e2 s).2 a1 htm2 (by rw [hshape]; exact hext)

/-- The concrete state for the C10 witness: the empty wheel after inserting
(by value) an entry with id 7, delay 5; its allocation id is 0. -/
def c10state : CState := (cinsertV ⟨7, 5⟩ cnew).2

/-- Witness for C10: insert a second entry with the same id 7 (delay 3) and
run six ticks; the theorem's hypotheses hold concretely and allocation 0 is
never yielded. -/
theorem c10_duplicate_insert_replaces_witness :
    (lookupKey c10state.timers (7 : Nat) = some 0 ∧ (0 : Nat) ∉ c10state.ext ∧
      (0 : Nat) ≠ c10state.next ∧ 1 ≤ (3 : Nat)) ∧
    ((cinsertV ⟨7, 3⟩ c10state).1 = .ok () ∧
     lookupKey (cinsertV ⟨7, 3⟩ c10state).2.timers 7 = some c10state.next ∧
     (∀ q ∈ (cinsertV ⟨7, 3⟩ c10state).2.timers, q.2 ≠ 0) ∧
     (∀ q ∈ (runTrace (cinsertV ⟨7, 3⟩ c10state).2 (List.replicate 6 .tick)).1,
        q.1 ≠ 0)) :=
  ⟨⟨by decide, by decide, by decide, by decide⟩,
   c10_duplicate_insert_replaces c10state ⟨7, 3⟩ 0 6 (by decide) (by decide)
     (by decide) (by decide) (by decide)⟩

/-! ## Dead-entry extension: the machinery for the amended claim C4

A cancelled entry's weak handle lingers in the wheel until it is lazily
reaped.  We show that a wheel extended by dead entries (entries whose
allocation has no strong handle anywhere) yields exactly the same expiry
lists as the unextended wheel, forever. -/

/-- `DIL dead l l₂`: the list `l₂ ` is `l` with some additional dead entries
interleaved. -/
inductive DIL (dead : Nat → Prop) : List WEntry → List WEntry → Prop where
  | nil : DIL dead [] []
  | keep (e : WEntry) {l l₂ : List WEntry} : DIL dead l l₂ → DIL dead (e :: l) (e :: l₂)
  | drop (e : WEntry) {l l₂ : List WEntry} : dead e.1 → DIL dead l l₂ →
      DIL dead l (e :: l₂)

theorem DIL.rfl {dead : Nat → Prop} : ∀ l : List WEntry, DIL dead l l
  | [] => .nil
  | e :: rest => .keep e (DIL.rfl rest)

theorem DIL.append_common {dead : Nat → Prop} {l l₂ : List WEntry}
    (h : DIL dead l l₂) (es : List WEntry) : DIL dead (l ++ es) (l₂ ++ es) := by
  induction h with
  | nil => simpa using DIL.rfl es
  | keep e _ ih => exact .keep e ih
  | drop e he _ ih => exact .drop e he ih

theorem DIL.all_dead {dead : Nat → Prop} :
    ∀ es : List WEntry, (∀ e ∈ es, dead e.1) → DIL dead [] es
  | [], _ => .nil
  | e :: rest, hes =>
    .drop e (hes e (List.mem_cons_self _ _))
      (DIL.all_dead rest (fun x hx => hes x (List.mem_cons_of_mem _ hx)))

theorem DIL.append_dead {dead : Nat → Prop} {l l₂ : List WEntry}
    (h : DIL dead l l₂) (es : List WEntry) (hes : ∀ e ∈ es, dead e.1) :
    DIL dead l (l₂ ++ es) := by
  induction h with
  | nil => simpa using DIL.all_dead es hes
  | keep e _ ih => exact .keep e ih
  | drop e he _ ih => exact .drop e he ih

/-- Pruning with a predicate that rejects every dead allocation erases the
difference between a list and its dead-extension. -/
theorem DIL.filter_eq {dead : Nat → Prop} {l l₂ : List WEntry}
    (h : DIL dead l l₂) (p : Nat → Bool) (hp : ∀ b, dead b → p b = false) :
    l₂.filter (fun e => p e.1) = l.filter (fun e => p e.1) := by
  induction h with
  | nil => rfl
  | keep e _ ih => simp only [List.filter_cons, ih]
  | drop e he _ ih => simp only [List.filter_cons, hp e.1 he, ih]; rfl

/-- `WheelExt dead w w₂`: the wheel `w₂` is `w` with some dead entries
interleaved in its slots and its overflow list. -/
structure WheelExt (dead : Nat → Prop) (w w₂ : QuadState) : Prop where
  time_eq : w₂.time = w.time
  h0 : ∀ j, DIL dead (w.w0 j) (w₂.w0 j)
  h1 : ∀ j, DIL dead (w.w1 j) (w₂.w1 j)
  h2 : ∀ j, DIL dead (w.w2 j) (w₂.w2 j)
  h3 : ∀ j, DIL dead (w.w3 j) (w₂.w3 j)
  hov : DIL dead w.overflow w₂.overflow

theorem WheelExt.refl {dead : Nat → Prop} (w : QuadState) : WheelExt dead w w :=
  ⟨Eq.refl _, fun _ => DIL.rfl _, fun _ => DIL.rfl _, fun _ => DIL.rfl _,
    fun _ => DIL.rfl _, DIL.rfl _⟩

theorem wheelAt_ext {dead : Nat → Prop} {w w₂ : QuadState}
    (h : WheelExt dead w w₂) (k j : Nat) :
    DIL dead (w.wheelAt k j) (w₂.wheelAt k j) := by
  rcases k with _ | _ | _ | k4
  · exact h.h0 j
  · exact h.h1 j
  · exact h.h2 j
  · exact h.h3 j

theorem setWheel_ext {dead : Nat → Prop} {w w₂ : QuadState}
    (h : WheelExt dead w w₂) (k : Nat) (f f₂ : Nat → List WEntry)
    (hf : ∀ j, DIL dead (f j) (f₂ j)) :
    WheelExt dead (w.setWheel k f) (w₂.setWheel k f₂) := by
  rcases k with _ | _ | _ | k4
  · exact ⟨h.time_eq, hf, h.h1, h.h2, h.h3, h.hov⟩
  · exact ⟨h.time_eq, h.h0, hf, h.h2, h.h3, h.hov⟩
  · exact ⟨h.time_eq, h.h0, h.h1, hf, h.h3, h.hov⟩
  · exact ⟨h.time_eq, h.h0, h.h1, h.h2, hf, h.hov⟩

theorem insertAbs_ext {dead : Nat → Prop} {w w₂ : QuadState}
    (h : WheelExt dead w w₂) (e : WEntry) :
    WheelExt dead (insertAbs w e) (insertAbs w₂ e) := by
  unfold insertAbs
  rw [h.time_eq]
  apply setWheel_ext h
  intro j
  dsimp only [setSlot]
  by_cases hj : j = byteOf e.2 (level w.time e.2)
  · rw [if_pos hj, if_pos hj]
    exact (wheelAt_ext h _ _).append_common [e]
  · rw [if_neg hj, if_neg hj]
    exact wheelAt_ext h _ j

theorem level_cases (t f : Nat) :
    level t f = 0 ∨ level t f = 1 ∨ level t f = 2 ∨ level t f = 3 := by
  unfold level
  split_ifs <;> simp

/-- Pointwise: updating one slot by appending a dead entry is a
dead-interleaving of the unchanged wheel. -/
theorem setSlot_append_dead {dead : Nat → Prop} (f : Nat → List WEntry)
    (j0 : Nat) (e : WEntry) (he : dead e.1) (j : Nat) :
    DIL dead (f j) (setSlot f j0 (f j0 ++ [e]) j) := by
  dsimp only [setSlot]
  by_cases hj : j = j0
  · subst hj
    rw [if_pos (Eq.refl j)]
    exact (DIL.rfl _).append_dead [e]
      (by intro x hx; rcases List.mem_singleton.mp hx with rfl; exact he)
  · rw [if_neg hj]
    exact DIL.rfl _

/-- Extending a wheel by one dead entry placed by `insertAbs`. -/
theorem insertAbs_dead_ext {dead : Nat → Prop} (w : QuadState) (e : WEntry)
    (he : dead e.1) : WheelExt dead w (insertAbs w e) := by
  have hk4 := level_cases w.time e.2
  unfold insertAbs
  rcases hk4 with hk | hk | hk | hk <;> rw [hk] <;>
    dsimp only [QuadState.setWheel, QuadState.wheelAt]
  · exact ⟨Eq.refl _, setSlot_append_dead w.w0 _ e he, fun _ => DIL.rfl _,
      fun _ => DIL.rfl _, fun _ => DIL.rfl _, DIL.rfl _⟩
  · exact ⟨Eq.refl _, fun _ => DIL.rfl _, setSlot_append_dead w.w1 _ e he,
      fun _ => DIL.rfl _, fun _ => DIL.rfl _, DIL.rfl _⟩
  · exact ⟨Eq.refl _, fun _ => DIL.rfl _, fun _ => DIL.rfl _,
      setSlot_append_dead w.w2 _ e he, fun _ => DIL.rfl _, DIL.rfl _⟩
  · exact ⟨Eq.refl _, fun _ => DIL.rfl _, fun _ => DIL.rfl _,
      fun _ => DIL.rfl _, setSlot_append_dead w.w3 _ e he, DIL.rfl _⟩

theorem reinsertAll_ext {dead : Nat → Prop} (p : Nat → Bool)
    (hp : ∀ b, dead b → p b = false) (m : Nat) :
    ∀ {l l₂ : List WEntry}, DIL dead l l₂ → ∀ {w w₂ : QuadState},
      WheelExt dead w w₂ →
      (reinsertAll p m l₂ w₂).1 = (reinsertAll p m l w).1 ∧
        WheelExt dead (reinsertAll p m l w).2 (reinsertAll p m l₂ w₂).2 := by
  intro l l₂ hd
  induction hd with
  | nil => intro w w₂ hw; exact ⟨Eq.refl _, hw⟩
  | keep e hd2 ih =>
    intro w w₂ hw
    simp only [reinsertAll]
    by_cases hpe : p e.1 = true
    · rw [if_pos hpe, if_pos hpe]
      by_cases hm : e.2 % m = 0
      · rw [if_pos hm, if_pos hm]
        obtain ⟨hy, hs⟩ := ih hw
        exact ⟨by rw [hy], hs⟩
      · rw [if_neg hm, if_neg hm]
        exact ih (insertAbs_ext hw e)
    · rw [if_neg hpe, if_neg hpe]
      exact ih hw
  | drop e he hd2 ih =>
    intro w w₂ hw
    obtain ⟨hy, hs⟩ := ih hw
    have hpe : ¬(p e.1 = true) := by rw [hp e.1 he]; exact Bool.false_ne_true
    simp only [reinsertAll]
    rw [if_neg hpe]
    exact ⟨hy, hs⟩

theorem cascadeAt_ext {dead : Nat → Prop} (p : Nat → Bool)
    (hp : ∀ b, dead b → p b = false) (k m : Nat) {w w₂ : QuadState}
    (h : WheelExt dead w w₂) :
    (cascadeAt p k m w₂).1 = (cascadeAt p k m w).1 ∧
      WheelExt dead (cascadeAt p k m w).2 (cascadeAt p k m w₂).2 := by
  unfold cascadeAt
  rw [h.time_eq]
  apply reinsertAll_ext p hp m (wheelAt_ext h k (byteOf w.time k))
  apply setWheel_ext h
  intro j
  dsimp only [setSlot]
  by_cases hj : j = byteOf w.time k
  · rw [if_pos hj, if_pos hj]; exact .nil
  · rw [if_neg hj, if_neg hj]; exact wheelAt_ext h k j

theorem promoteList_ext {dead : Nat → Prop} (p : Nat → Bool)
    (hp : ∀ b, dead b → p b = false) :
    ∀ {l l₂ : List WEntry}, DIL dead l l₂ → ∀ {w w₂ : QuadState},
      WheelExt dead w w₂ →
      (promoteList p l₂ w₂).1 = (promoteList p l w).1 ∧
        WheelExt dead (promoteList p l w).2 (promoteList p l₂ w₂).2 := by
  intro l l₂ hd
  induction hd with
  | nil => intro w w₂ hw; exact ⟨Eq.refl _, hw⟩
  | keep e hd2 ih =>
    intro w w₂ hw
    simp only [promoteList]
    rw [hw.time_eq]
    by_cases hpe : p e.1 = true
    · rw [if_pos hpe, if_pos hpe]
      by_cases hle : e.2 ≤ w.time
      · rw [if_pos hle, if_pos hle]
        obtain ⟨hy, hs⟩ := ih hw
        exact ⟨by rw [hy], hs⟩
      · rw [if_neg hle, if_neg hle]
        by_cases hlt : e.2 < w.time + 4294967296
        · rw [if_pos hlt, if_pos hlt]
          exact ih (insertAbs_ext hw e)
        · rw [if_neg hlt, if_neg hlt]
          obtain ⟨hy, hs⟩ := ih hw
          refine ⟨by rw [hy], ?_⟩
          exact ⟨hs.time_eq, hs.h0, hs.h1, hs.h2, hs.h3, hs.hov.append_common [e]⟩
    · rw [if_neg hpe, if_neg hpe]
      exact ih hw
  | drop e he hd2 ih =>
    intro w w₂ hw
    obtain ⟨hy, hs⟩ := ih hw
    have hpe : ¬(p e.1 = true) := by rw [hp e.1 he]; exact Bool.false_ne_true
    simp only [promoteList]
    rw [if_neg hpe]
    exact ⟨hy, hs⟩

theorem scanOverflow_ext {dead : Nat → Prop} (p : Nat → Bool)
    (hp : ∀ b, dead b → p b = false) {w w₂ : QuadState}
    (h : WheelExt dead w w₂) :
    (scanOverflow p w₂).1 = (scanOverflow p w).1 ∧
      WheelExt dead (scanOverflow p w).2 (scanOverflow p w₂).2 := by
  unfold scanOverflow
  exact promoteList_ext p hp h.hov ⟨h.time_eq, h.h0, h.h1, h.h2, h.h3, .nil⟩

/-- Ticking a wheel and its dead-extension produces the same expiry list, and
the results are again related. -/
theorem qtick_ext {dead : Nat → Prop} (p : Nat → Bool)
    (hp : ∀ b, dead b → p b = false) {w w₂ : QuadState}
    (h : WheelExt dead w w₂) :
    (qtick p w₂).1 = (qtick p w).1 ∧
      WheelExt dead (qtick p w).2 (qtick p w₂).2 := by
  unfold qtick
  rw [h.time_eq]
  dsimp only
  have hexp : (w₂.w0 ((w.time + 1) % 256)).filter (fun e => p e.1) =
      (w.w0 ((w.time + 1) % 256)).filter (fun e => p e.1) :=
    (h.h0 _).filter_eq p hp
  have hs0 : WheelExt dead
      { w with time := w.time + 1, w0 := setSlot w.w0 ((w.time + 1) % 256) [] }
      { w₂ with time := w.time + 1, w0 := setSlot w₂.w0 ((w.time + 1) % 256) [] } := by
    refine ⟨Eq.refl _, ?_, h.h1, h.h2, h.h3, h.hov⟩
    intro j
    dsimp only [setSlot]
    by_cases hj : j = (w.time + 1) % 256
    · rw [if_pos hj, if_pos hj]; exact .nil
    · rw [if_neg hj, if_neg hj]; exact h.h0 j
  by_cases h256 : (w.time + 1) % 256 = 0
  · rw [if_pos h256, if_pos h256]
    obtain ⟨hy1, hs1⟩ := cascadeAt_ext p hp 1 256 hs0
    by_cases h65536 : (w.time + 1) % 65536 = 0
    · rw [if_pos h65536, if_pos h65536]
      obtain ⟨hy2, hs2⟩ := cascadeAt_ext p hp 2 65536 hs1
      by_cases h224 : (w.time + 1) % 16777216 = 0
      · rw [if_pos h224, if_pos h224]
        obtain ⟨hy3, hs3⟩ := cascadeAt_ext p hp 3 16777216 hs2
        by_cases h232 : (w.time + 1) % 4294967296 = 0
        · rw [if_pos h232, if_pos h232]
          obtain ⟨hy4, hs4⟩ := scanOverflow_ext p hp hs3
          exact ⟨by rw [hexp, hy1, hy2, hy3, hy4], hs4⟩
        · rw [if_neg h232, if_neg h232]
          exact ⟨by rw [hexp, hy1, hy2, hy3], hs3⟩
      · rw [if_neg h224, if_neg h224]
        by_cases h232 : (w.time + 1) % 4294967296 = 0
        · rw [if_pos h232, if_pos h232]
          obtain ⟨hy4, hs4⟩ := scanOverflow_ext p hp hs2
          exact ⟨by rw [hexp, hy1, hy2, hy4], hs4⟩
        · rw [if_neg h232, if_neg h232]
          exact ⟨by rw [hexp, hy1, hy2], hs2⟩
    · rw [if_neg h65536, if_neg h65536]
      by_cases h224 : (w.time + 1) % 16777216 = 0
      · rw [if_pos h224, if_pos h224]
        obtain ⟨hy3, hs3⟩ := cascadeAt_ext p hp 3 16777216 hs1
        by_cases h232 : (w.time + 1) % 4294967296 = 0
        · rw [if_pos h232, if_pos h232]
          obtain ⟨hy4, hs4⟩ := scanOverflow_ext p hp hs3
          exact ⟨by rw [hexp, hy1, hy3, hy4], hs4⟩
        · rw [if_neg h232, if_neg h232]
          exact ⟨by rw [hexp, hy1, hy3], hs3⟩
      · rw [if_neg h224, if_neg h224]
        by_cases h232 : (w.time + 1) % 4294967296 = 0
        · rw [if_pos h232, if_pos h232]
          obtain ⟨hy4, hs4⟩ := scanOverflow_ext p hp hs1
          exact ⟨by rw [hexp, hy1, hy4], hs4⟩
        · rw [if_neg h232, if_neg h232]
          exact ⟨by rw [hexp, hy1], hs1⟩
  · rw [if_neg h256, if_neg h256]
    by_cases h65536 : (w.time + 1) % 65536 = 0
    · rw [if_pos h65536, if_pos h65536]
      obtain ⟨hy2, hs2⟩ := cascadeAt_ext p hp 2 65536 hs0
      by_cases h224 : (w.time + 1) % 16777216 = 0
      · rw [if_pos h224, if_pos h224]
        obtain ⟨hy3, hs3⟩ := cascadeAt_ext p hp 3 16777216 hs2
        by_cases h232 : (w.time + 1) % 4294967296 = 0
        · rw [if_pos h232, if_pos h232]
          obtain ⟨hy4, hs4⟩ := scanOverflow_ext p hp hs3
          exact ⟨by rw [hexp, hy2, hy3, hy4], hs4⟩
        · rw [if_neg h232, if_neg h232]
          exact ⟨by rw [hexp, hy2, hy3], hs3⟩
      · rw [if_neg h224, if_neg h224]
        by_cases h232 : (w.time + 1) % 4294967296 = 0
        · rw [if_pos h232, if_pos h232]
          obtain ⟨hy4, hs4⟩ := scanOverflow_ext p hp hs2
          exact ⟨by rw [hexp, hy2, hy4], hs4⟩
        · rw [if_neg h232, if_neg h232]
          exact ⟨by rw [hexp, hy2], hs2⟩
    · rw [if_neg h65536, if_neg h65536]
      by_cases h224 : (w.time + 1) % 16777216 = 0
      · rw [if_pos h224, if_pos h224]
        obtain ⟨hy3, hs3⟩ := cascadeAt_ext p hp 3 16777216 hs0
        by_cases h232 : (w.time + 1) % 4294967296 = 0
        · rw [if_pos h232, if_pos h232]
          obtain ⟨hy4, hs4⟩ := scanOverflow_ext p hp hs3
          exact ⟨by rw [hexp, hy3, hy4], hs4⟩
        · rw [if_neg h232, if_neg h232]
          exact ⟨by rw [hexp, hy3], hs3⟩
      · rw [if_neg h224, if_neg h224]
        by_cases h232 : (w.time + 1) % 4294967296 = 0
        · rw [if_pos h232, if_pos h232]
          obtain ⟨hy4, hs4⟩ := scanOverflow_ext p hp hs0
          exact ⟨by rw [hexp, hy4], hs4⟩
        · rw [if_neg h232, if_neg h232]
          exact ⟨by rw [hexp], hs0⟩

theorem reinsertAll_yields_kept (p : Nat → Bool) (m : Nat) :
    ∀ (l : List WEntry) (s : QuadState), ∀ q ∈ (reinsertAll p m l s).1, p q.1 = true := by
  intro l
  induction l with
  | nil => intro s q hq; simp [reinsertAll] at hq
  | cons e rest ih =>
    intro s q hq
    simp only [reinsertAll] at hq
    by_cases hpe : p e.1 = true
    · rw [if_pos hpe] at hq
      by_cases hm : e.2 % m = 0
      · rw [if_pos hm] at hq
        rcases List.mem_cons.mp hq with rfl | hq
        · exact hpe
        · exact ih _ q hq
      · rw [if_neg hm] at hq
        exact ih _ q hq
    · rw [if_neg hpe] at hq
      exact ih _ q hq

theorem promoteList_yields_kept (p : Nat → Bool) :
    ∀ (l : List WEntry) (s : QuadState), ∀ q ∈ (promoteList p l s).1, p q.1 = true := by
  intro l
  induction l with
  | nil => intro s q hq; simp [promoteList] at hq
  | cons e rest ih =>
    intro s q hq
    simp only [promoteList] at hq
    by_cases hpe : p e.1 = true
    · rw [if_pos hpe] at hq
      by_cases hle : e.2 ≤ s.time
      · rw [if_pos hle] at hq
        rcases List.mem_cons.mp hq with rfl | hq
        · exact hpe
        · exact ih _ q hq
      · rw [if_neg hle] at hq
        by_cases hlt : e.2 < s.time + 4294967296
        · rw [if_pos hlt] at hq
          exact ih _ q hq
        · rw [if_neg hlt] at hq
          exact ih _ q hq
    · rw [if_neg hpe] at hq
      exact ih _ q hq

theorem mem_ite_pair {c : Prop} [Decidable c] {X : List WEntry × QuadState}
    {Y : QuadState} {q : WEntry} (hq : q ∈ (if c then X else ([], Y)).1) :
    q ∈ X.1 := by
  by_cases hc : c
  · rwa [if_pos hc] at hq
  · rw [if_neg hc] at hq
    cases hq

/-- Every entry yielded by the quad wheel's tick was kept by the pruner. -/
theorem qtick_yields_kept (p : Nat → Bool) (s : QuadState) :
    ∀ q ∈ (qtick p s).1, p q.1 = true := by
  intro q hq
  unfold qtick at hq
  dsimp only at hq
  rcases List.mem_append.mp hq with hq | hq4
  rcases List.mem_append.mp hq with hq | hq3
  rcases List.mem_append.mp hq with hq | hq2
  rcases List.mem_append.mp hq with hq | hq1
  · exact (List.mem_filter.mp hq).2
  · have := mem_ite_pair hq1
    unfold cascadeAt at this
    exact reinsertAll_yields_kept p 256 _ _ q this
  · have := mem_ite_pair hq2
    unfold cascadeAt at this
    exact reinsertAll_yields_kept p 65536 _ _ q this
  · have := mem_ite_pair hq3
    unfold cascadeAt at this
    exact reinsertAll_yields_kept p 16777216 _ _ q this
  · have := mem_ite_pair hq4
    unfold scanOverflow at this
    exact promoteList_yields_kept p _ _ q this

/-- `take_timer` never consults a heap entry whose allocation id is absent
from the weak-handle list. -/
theorem takeAll_heap_ext (h : List (Nat × Entry)) (ex : List Nat) (a : Nat)
    (e0 : Entry) :
    ∀ (ws : List WEntry) (ys : List (Nat × Entry)) (tm : List (Nat × Nat)),
      (∀ q ∈ ws, q.1 ≠ a) →
      takeAll ((a, e0) :: h) ex ws ys tm = takeAll h ex ws ys tm := by
  intro ws
  induction ws with
  | nil => intro ys tm _; rfl
  | cons e rest ih =>
    intro ys tm hws
    have hea : e.1 ≠ a := hws e (List.mem_cons_self _ _)
    have hrest : ∀ q ∈ rest, q.1 ≠ a := fun q hq => hws q (List.mem_cons_of_mem _ hq)
    have hget : heapGet ((a, e0) :: h) e.1 = heapGet h e.1 := by
      simp only [heapGet, lookupKey]
      rw [if_neg (fun hx => hea hx.symm)]
    simp only [takeAll, hget]
    by_cases hs : strongAlive e.1 tm ex ys = true
    · rw [if_pos hs, if_pos hs]
      cases hl : lookupKey tm (heapGet h e.1).id with
      | some v =>
        simp only [hl]
        exact ih _ _ hrest
      | none =>
        simp only [hl]
        exact ih _ _ hrest
    · rw [if_neg hs, if_neg hs]
      exact ih _ _ hrest

/-- The coupling between a cancellable-wheel state and the same state whose
inner wheel carries one extra dead allocation `a` (and whose heap records
it): everything observable by `tick` and by `timers` membership agrees. -/
structure CExt (a : Nat) (s s₂ : CState) : Prop where
  wx : WheelExt (fun b => b = a) s.wheel s₂.wheel
  tm_eq : s₂.timers = s.timers
  ex_eq : s₂.ext = s.ext
  hp_eq : ∃ e0, s₂.heap = (a, e0) :: s.heap
  dead_tm : ∀ q ∈ s.timers, q.2 ≠ a
  dead_ex : a ∉ s.ext

theorem ctick_cext {a : Nat} {s s₂ : CState} (h : CExt a s s₂) :
    (ctick s₂).1 = (ctick s).1 ∧ CExt a (ctick s).2 (ctick s₂).2 := by
  have hpr : pruneOf s₂ = pruneOf s := by
    unfold pruneOf
    rw [h.tm_eq, h.ex_eq]
  have hpf : pruneOf s a = false :=
    strongAlive_eq_false a s.timers s.ext [] h.dead_tm h.dead_ex (by simp)
  have hp : ∀ b, (fun b => b = a) b → pruneOf s b = false := by
    intro b hb
    cases hb
    exact hpf
  obtain ⟨hy, hw⟩ := qtick_ext (pruneOf s) hp h.wx
  obtain ⟨e0, hheap⟩ := h.hp_eq
  have hwsne : ∀ q ∈ (qtick (pruneOf s) s.wheel).1, q.1 ≠ a := by
    intro q hq hqa
    have hk := qtick_yields_kept (pruneOf s) s.wheel q hq
    rw [hqa, hpf] at hk
    cases hk
  have hc2 : ctick s₂ =
      ((takeAll s.heap s.ext (qtick (pruneOf s) s.wheel).1 [] s.timers).1,
       { s₂ with wheel := (qtick (pruneOf s) s₂.wheel).2,
                 timers := (takeAll s.heap s.ext (qtick (pruneOf s) s.wheel).1
                   [] s.timers).2 }) := by
    unfold ctick
    dsimp only
    rw [hpr, h.tm_eq, hheap, hy,
      takeAll_heap_ext s.heap s₂.ext a e0 _ _ _ hwsne, h.ex_eq]
  have hc1 : ctick s =
      ((takeAll s.heap s.ext (qtick (pruneOf s) s.wheel).1 [] s.timers).1,
       { s with wheel := (qtick (pruneOf s) s.wheel).2,
                timers := (takeAll s.heap s.ext (qtick (pruneOf s) s.wheel).1
                  [] s.timers).2 }) := rfl
  have hdead2 := takeAll_no_alloc s.heap s.ext (qtick (pruneOf s) s.wheel).1 a
    h.dead_ex [] s.timers h.dead_tm (by simp)
  rw [hc1, hc2]
  exact ⟨rfl, hw, rfl, h.ex_eq, ⟨e0, hheap⟩, hdead2.2, h.dead_ex⟩

/-- Over any number of ticks, a dead-extension is indistinguishable: the
yielded expiry lists and the `timers` tables agree. -/
theorem runTicksC_cext (n : Nat) :
    ∀ {a : Nat} {s s₂ : CState}, CExt a s s₂ →
      (runTicksC n s₂).1 = (runTicksC n s).1 ∧
        (runTicksC n s₂).2.timers = (runTicksC n s).2.timers := by
  induction n with
  | zero => intro a s s₂ h; exact ⟨rfl, h.tm_eq⟩
  | succ n ih =>
    intro a s s₂ h
    obtain ⟨hy, hc⟩ := ctick_cext h
    obtain ⟨hy2, htm2⟩ := ih hc
    simp only [runTicksC]
    exact ⟨by rw [hy, hy2], htm2⟩

/-- C4, amended: for every wheel state (with a well-formed allocator) and
every entry `e` with a fresh id, `insert(e); cancel(e.id)` both succeed and
leave a state indistinguishable from never having inserted `e` as judged by
the entries yielded by every subsequent sequence of `tick()` calls and by id
membership in the `timers` table.  (The third observation of the original
claim, `can_skip()`, can differ, because the dead weak handle still occupies
a wheel slot until lazily reaped — see the counterexample.) -/
theorem c4_insert_cancel_roundtrip_amended (s : CState) (e : Entry) (n : Nat)
    (hfresh : lookupKey s.timers e.id = none)
    (halloc_tm : ∀ q ∈ s.timers, q.2 ≠ s.next)
    (halloc_ex : s.next ∉ s.ext)
    (hd : 1 ≤ e.delay) :
    (cinsertV e s).1 = .ok () ∧
    (ccancel e.id (cinsertV e s).2).1 = .ok () ∧
    (runTicksC n (ccancel e.id (cinsertV e s).2).2).1 = (runTicksC n s).1 ∧
    (runTicksC n (ccancel e.id (cinsertV e s).2).2).2.timers =
      (runTicksC n s).2.timers := by
  have hd0 : ¬(e.delay = 0) := by omega
  obtain ⟨w2, hshape, hwx⟩ : ∃ w2, cinsertV e s =
      (.ok (), { s with wheel := w2,
                        timers := (e.id, s.next) :: eraseKey s.timers e.id,
                        heap := (s.next, e) :: s.heap,
                        next := s.next + 1 }) ∧
      WheelExt (fun b => b = s.next) s.wheel w2 := by
    refine ⟨(insertWithDelay s.wheel s.next e.delay).2, ?_, ?_⟩
    · by_cases hbig : 4294967296 ≤ e.delay
      · simp [cinsertV, insertWithDelay, hd0, hbig]
      · simp [cinsertV, insertWithDelay, hd0, hbig]
    · by_cases hbig : 4294967296 ≤ e.delay
      · simp only [insertWithDelay, if_neg hd0, if_pos hbig]
        exact ⟨Eq.refl _, fun _ => DIL.rfl _, fun _ => DIL.rfl _, fun _ => DIL.rfl _,
          fun _ => DIL.rfl _,
          (DIL.rfl _).append_dead _
            (by intro x hx; rcases List.mem_singleton.mp hx with rfl; rfl)⟩
      · simp only [insertWithDelay, if_neg hd0, if_neg hbig]
        exact insertAbs_dead_ext _ _ rfl
  have her : eraseKey s.timers e.id = s.timers := eraseKey_of_lookup_none _ _ hfresh
  rw [hshape, her]
  have hcan : ccancel e.id
      { s with wheel := w2, timers := (e.id, s.next) :: s.timers,
               heap := (s.next, e) :: s.heap, next := s.next + 1 } =
      (.ok (), { s with wheel := w2, timers := s.timers,
                        heap := (s.next, e) :: s.heap, next := s.next + 1 }) := by
    simp [ccancel, lookupKey, eraseKey, her]
  rw [hcan]
  have hcx : CExt s.next s
      { s with wheel := w2, timers := s.timers,
               heap := (s.next, e) :: s.heap, next := s.next + 1 } :=
    ⟨hwx, rfl, rfl, ⟨e, rfl⟩, halloc_tm, halloc_ex⟩
  obtain ⟨hy, htm⟩ := runTicksC_cext n hcx
  exact ⟨rfl, rfl, hy, htm⟩

/-- The concrete base state for the C4 witness: one unrelated entry (id 9)
already scheduled. -/
def c4state : CState := (cinsertV ⟨9, 4⟩ cnew).2

/-- Witness for the amended C4 at a concrete state: insert id 1 (fresh) at
delay 2, cancel it; six subsequent ticks and the `timers` table coincide with
the run that never inserted it. -/
theorem c4_insert_cancel_roundtrip_amended_witness :
    (lookupKey c4state.timers (1 : Nat) = none ∧
      (∀ q ∈ c4state.timers, q.2 ≠ c4state.next) ∧ c4state.next ∉ c4state.ext ∧
      1 ≤ (2 : Nat)) ∧
    ((cinsertV ⟨1, 2⟩ c4state).1 = .ok () ∧
     (ccancel 1 (cinsertV ⟨1, 2⟩ c4state).2).1 = .ok () ∧
     (runTicksC 6 (ccancel 1 (cinsertV ⟨1, 2⟩ c4state).2).2).1 =
       (runTicksC 6 c4state).1 ∧
     (runTicksC 6 (ccancel 1 (cinsertV ⟨1, 2⟩ c4state).2).2).2.timers =
       (runTicksC 6 c4state).2.timers) :=
  ⟨⟨by decide, by decide, by decide, by decide⟩,
   c4_insert_cancel_roundtrip_amended c4state ⟨1, 2⟩ 6 (by decide) (by decide)
     (by decide) (by decide)⟩

/-! ## Claim C5: skip safety -/

theorem minList_none {l : List Nat} (h : minList l = none) : l = [] := by
  cases l with
  | nil => rfl
  | cons x rest =>
    simp only [minList] at h
    cases hr : minList rest <;> rw [hr] at h <;> simp at h

theorem minList_le : ∀ (l : List Nat) (d : Nat), minList l = some d → ∀ x ∈ l, d ≤ x := by
  intro l
  induction l with
  | nil => intro d _ x hx; cases hx
  | cons x rest ih =>
    intro d hd y hy
    simp only [minList] at hd
    cases hr : minList rest with
    | none =>
      rw [hr] at hd
      have hre := minList_none hr
      injection hd with hd
      subst hd
      rcases List.mem_cons.mp hy with rfl | hy
      · exact Nat.le_refl _
      · rw [hre] at hy; cases hy
    | some z =>
      rw [hr] at hd
      injection hd with hd
      subst hd
      rcases List.mem_cons.mp hy with rfl | hy
      · exact Nat.min_le_left _ _
      · exact Nat.le_trans (Nat.min_le_right _ _) (ih z hr y hy)

/-- If the level-`k` slot drained at step `j` (with `unit = 256^k` dividing
the target counter) is non-empty, the level's candidate list contains a
distance of at most `j`: the first drain of that slot lies no later. -/
theorem levelCandidates_cover (w : QuadState) (k unit j : Nat)
    (hdvd : unit ∣ (w.time + j)) (hj : 1 ≤ j)
    (hne : ¬ w.wheelAt k ((w.time + j) / unit % 256) = []) :
    ∃ v ∈ levelCandidates w k unit, v ≤ j := by
  have hu : 0 < unit := by
    rcases Nat.eq_zero_or_pos unit with h0 | h
    · subst h0
      rcases hdvd with ⟨c, hc⟩
      omega
    · exact h
  have h2 : (w.time + j) / unit * unit = w.time + j := Nat.div_mul_cancel hdvd
  have h1 : w.time / unit * unit ≤ w.time := Nat.div_mul_le_self _ _
  have hmono : w.time / unit ≤ (w.time + j) / unit :=
    Nat.div_le_div_right (Nat.le_add_right _ _)
  have hq21 : w.time / unit < (w.time + j) / unit := by
    rcases Nat.lt_or_ge (w.time / unit) ((w.time + j) / unit) with h | h
    · exact h
    · have heq : w.time / unit = (w.time + j) / unit := Nat.le_antisymm hmono h
      rw [← heq] at h2
      omega
  set q1 := w.time / unit with hq1
  set q2 := (w.time + j) / unit with hq2
  set D := q2 - q1 with hD
  set c := (D - 1) % 256 + 1 with hc
  have hcD : c ≤ D := by
    have := Nat.mod_le (D - 1) 256
    omega
  have hc256 : c - 1 < 256 := by
    have := Nat.mod_lt (D - 1) (show 0 < 256 by omega)
    omega
  have hslot : (q1 + c) % 256 = q2 % 256 := by omega
  refine ⟨(q1 + c) * unit - w.time, ?_, ?_⟩
  · unfold levelCandidates
    apply List.mem_filterMap.mpr
    refine ⟨c - 1, List.mem_range.mpr hc256, ?_⟩
    have hc1 : c - 1 + 1 = c := by omega
    rw [hc1, hslot, if_neg hne]
  · have hle : (q1 + c) * unit ≤ q2 * unit := Nat.mul_le_mul_right _ (by omega)
    omega

theorem mem_allCandidates_0 (w : QuadState) {x : Nat}
    (h : x ∈ levelCandidates w 0 1) : x ∈ allCandidates w := by
  unfold allCandidates
  simp only [List.mem_append]
  exact Or.inl (Or.inl (Or.inl (Or.inl h)))

theorem mem_allCandidates_1 (w : QuadState) {x : Nat}
    (h : x ∈ levelCandidates w 1 256) : x ∈ allCandidates w := by
  unfold allCandidates
  simp only [List.mem_append]
  exact Or.inl (Or.inl (Or.inl (Or.inr h)))

theorem mem_allCandidates_2 (w : QuadState) {x : Nat}
    (h : x ∈ levelCandidates w 2 65536) : x ∈ allCandidates w := by
  unfold allCandidates
  simp only [List.mem_append]
  exact Or.inl (Or.inl (Or.inr h))

theorem mem_allCandidates_3 (w : QuadState) {x : Nat}
    (h : x ∈ levelCandidates w 3 16777216) : x ∈ allCandidates w := by
  unfold allCandidates
  simp only [List.mem_append]
  exact Or.inl (Or.inr h)

theorem mem_allCandidates_ov (w : QuadState) {x : Nat}
    (h : x ∈ overflowCandidates w) : x ∈ allCandidates w := by
  unfold allCandidates
  simp only [List.mem_append]
  exact Or.inr h

/-- Inside a `can_skip` window no drained slot is non-empty and no overflow
scan can trigger: every slot the next `d - 1` ticks would drain is empty, and
an epoch boundary is only crossed if the overflow list is empty. -/
theorem no_event_in_window (w : QuadState) (d : Nat)
    (hmin : minList (allCandidates w) = some d) (j : Nat)
    (h1 : 1 ≤ j) (hj : j < d) :
    w.w0 ((w.time + j) % 256) = [] ∧
    ((w.time + j) % 256 = 0 → w.w1 ((w.time + j) / 256 % 256) = []) ∧
    ((w.time + j) % 65536 = 0 → w.w2 ((w.time + j) / 65536 % 256) = []) ∧
    ((w.time + j) % 16777216 = 0 → w.w3 ((w.time + j) / 16777216 % 256) = []) ∧
    ((w.time + j) % 4294967296 = 0 → w.overflow = []) := by
  refine ⟨?_, ?_, ?_, ?_, ?_⟩
  · by_contra hne
    have hne2 : ¬ w.wheelAt 0 ((w.time + j) / 1 % 256) = [] := by
      rw [Nat.div_one]
      exact hne
    obtain ⟨v, hv, hvj⟩ := levelCandidates_cover w 0 1 j (Nat.one_dvd _) h1 hne2
    have := minList_le _ d hmin v (mem_allCandidates_0 w hv)
    omega
  · intro hm
    by_contra hne
    obtain ⟨v, hv, hvj⟩ := levelCandidates_cover w 1 256 j
      (Nat.dvd_of_mod_eq_zero hm) h1 hne
    have := minList_le _ d hmin v (mem_allCandidates_1 w hv)
    omega
  · intro hm
    by_contra hne
    obtain ⟨v, hv, hvj⟩ := levelCandidates_cover w 2 65536 j
      (Nat.dvd_of_mod_eq_zero hm) h1 hne
    have := minList_le _ d hmin v (mem_allCandidates_2 w hv)
    omega
  · intro hm
    by_contra hne
    obtain ⟨v, hv, hvj⟩ := levelCandidates_cover w 3 16777216 j
      (Nat.dvd_of_mod_eq_zero hm) h1 hne
    have := minList_le _ d hmin v (mem_allCandidates_3 w hv)
    omega
  · intro hm
    by_contra hne
    have hdvd := Nat.dvd_of_mod_eq_zero hm
    have h2 : (w.time + j) / 4294967296 * 4294967296 = w.time + j :=
      Nat.div_mul_cancel hdvd
    have h1b : w.time / 4294967296 * 4294967296 ≤ w.time := Nat.div_mul_le_self _ _
    have hmono : w.time / 4294967296 ≤ (w.time + j) / 4294967296 :=
      Nat.div_le_div_right (Nat.le_add_right _ _)
    have hq21 : w.time / 4294967296 < (w.time + j) / 4294967296 := by
      rcases Nat.lt_or_ge (w.time / 4294967296) ((w.time + j) / 4294967296) with h | h
      · exact h
      · have heq : w.time / 4294967296 = (w.time + j) / 4294967296 :=
          Nat.le_antisymm hmono h
        rw [← heq] at h2
        omega
    have hvmem : (w.time / 4294967296 + 1) * 4294967296 - w.time ∈
        overflowCandidates w := by
      unfold overflowCandidates
      rw [if_neg hne]
      exact List.mem_singleton.mpr rfl
    have hd2 := minList_le _ d hmin _ (mem_allCandidates_ov w hvmem)
    have hle : (w.time / 4294967296 + 1) * 4294967296 ≤
        (w.time + j) / 4294967296 * 4294967296 :=
      Nat.mul_le_mul_right _ (by omega)
    omega

theorem setWheel_wheelAt (s : QuadState) (k : Nat) :
    s.setWheel k (s.wheelAt k) = s := by
  rcases k with _ | _ | _ | k4 <;> rfl

/-- Cascading an empty slot leaves the state unchanged. -/
theorem cascadeAt_empty (p : Nat → Bool) (k m : Nat) (s : QuadState)
    (h : s.wheelAt k (byteOf s.time k) = []) :
    cascadeAt p k m s = ([], s) := by
  unfold cascadeAt
  dsimp only
  rw [h]
  have hsl : setSlot (s.wheelAt k) (byteOf s.time k) [] = s.wheelAt k :=
    funext (fun i => by
      dsimp only [setSlot]
      by_cases hi : i = byteOf s.time k
      · rw [if_pos hi, hi, h]
      · rw [if_neg hi])
  rw [hsl, setWheel_wheelAt]
  rfl

/-- Scanning an empty overflow list leaves the state unchanged. -/
theorem scanOverflow_empty (p : Nat → Bool) (s : QuadState) (h : s.overflow = []) :
    scanOverflow p s = ([], s) := by
  unfold scanOverflow
  rw [h]
  have hs : ({ s with overflow := [] } : QuadState) = s := by rw [← h]
  rw [hs]
  rfl

/-- A quiet tick — every slot it would drain is empty, and any epoch
crossing has an empty overflow list — returns no expiries and only advances
the counter; the corresponding silent skip step produces the same state. -/
theorem qtick_quiet (p : Nat → Bool) (w : QuadState)
    (h0 : w.w0 ((w.time + 1) % 256) = [])
    (h1 : (w.time + 1) % 256 = 0 → w.w1 ((w.time + 1) / 256 % 256) = [])
    (h2 : (w.time + 1) % 65536 = 0 → w.w2 ((w.time + 1) / 65536 % 256) = [])
    (h3 : (w.time + 1) % 16777216 = 0 → w.w3 ((w.time + 1) / 16777216 % 256) = [])
    (hov : (w.time + 1) % 4294967296 = 0 → w.overflow = []) :
    qtick p w = ([], { w with time := w.time + 1 }) ∧
      silentStep p w = { w with time := w.time + 1 } := by
  have hw0 : setSlot w.w0 ((w.time + 1) % 256) [] = w.w0 :=
    funext (fun i => by
      dsimp only [setSlot]
      by_cases hi : i = (w.time + 1) % 256
      · rw [if_pos hi, hi, h0]
      · rw [if_neg hi])
  set W : QuadState := { w with time := w.time + 1 } with hW
  have e1 : (w.time + 1) % 256 = 0 → cascadeAt p 1 256 W = ([], W) :=
    fun hc => cascadeAt_empty p 1 256 W (h1 hc)
  have e2 : (w.time + 1) % 65536 = 0 → cascadeAt p 2 65536 W = ([], W) :=
    fun hc => cascadeAt_empty p 2 65536 W (h2 hc)
  have e3 : (w.time + 1) % 16777216 = 0 → cascadeAt p 3 16777216 W = ([], W) :=
    fun hc => cascadeAt_empty p 3 16777216 W (h3 hc)
  have eov : (w.time + 1) % 4294967296 = 0 → scanOverflow p W = ([], W) :=
    fun hc => scanOverflow_empty p W (hov hc)
  have hr1 : (if (w.time + 1) % 256 = 0 then cascadeAt p 1 256 W else ([], W)) =
      ([], W) := by
    by_cases hc : (w.time + 1) % 256 = 0
    · rw [if_pos hc]; exact e1 hc
    · rw [if_neg hc]
  have hr2 : (if (w.time + 1) % 65536 = 0 then cascadeAt p 2 65536 W else ([], W)) =
      ([], W) := by
    by_cases hc : (w.time + 1) % 65536 = 0
    · rw [if_pos hc]; exact e2 hc
    · rw [if_neg hc]
  have hr3 : (if (w.time + 1) % 16777216 = 0 then cascadeAt p 3 16777216 W
      else ([], W)) = ([], W) := by
    by_cases hc : (w.time + 1) % 16777216 = 0
    · rw [if_pos hc]; exact e3 hc
    · rw [if_neg hc]
  have hr4 : (if (w.time + 1) % 4294967296 = 0 then scanOverflow p W
      else ([], W)) = ([], W) := by
    by_cases hc : (w.time + 1) % 4294967296 = 0
    · rw [if_pos hc]; exact eov hc
    · rw [if_neg hc]
  constructor
  · unfold qtick
    dsimp only
    rw [h0, hw0]
    rw [← hW]
    rw [hr1]
    dsimp only
    rw [hr2]
    dsimp only
    rw [hr3]
    dsimp only
    rw [hr4]
    simp
  · unfold silentStep
    dsimp only
    rw [← hW]
    have hs1 : (if (w.time + 1) % 256 = 0 then (cascadeAt p 1 256 W).2 else W) = W := by
      by_cases hc : (w.time + 1) % 256 = 0
      · rw [if_pos hc, e1 hc]
      · rw [if_neg hc]
    rw [hs1]
    have hs2 : (if (w.time + 1) % 65536 = 0 then (cascadeAt p 2 65536 W).2 else W) =
        W := by
      by_cases hc : (w.time + 1) % 65536 = 0
      · rw [if_pos hc, e2 hc]
      · rw [if_neg hc]
    rw [hs2]
    have hs3 : (if (w.time + 1) % 16777216 = 0 then (cascadeAt p 3 16777216 W).2
        else W) = W := by
      by_cases hc : (w.time + 1) % 16777216 = 0
      · rw [if_pos hc, e3 hc]
      · rw [if_neg hc]
    rw [hs3]
    by_cases hc : (w.time + 1) % 4294967296 = 0
    · rw [if_pos hc, eov hc]
    · rw [if_neg hc]

theorem qrunTicks_succ_back (p : Nat → Bool) :
    ∀ (n : Nat) (s : QuadState),
      qrunTicks p (n + 1) s =
        ((qrunTicks p n s).1 ++ [(qtick p (qrunTicks p n s).2).1],
         (qtick p (qrunTicks p n s).2).2) := by
  intro n
  induction n with
  | zero => intro s; rfl
  | succ n ih =>
    intro s
    have lhs_eq : qrunTicks p (n + 1 + 1) s =
        ((qtick p s).1 :: (qrunTicks p (n + 1) (qtick p s).2).1,
         (qrunTicks p (n + 1) (qtick p s).2).2) := rfl
    have rhs_eq : qrunTicks p (n + 1) s =
        ((qtick p s).1 :: (qrunTicks p n (qtick p s).2).1,
         (qrunTicks p n (qtick p s).2).2) := rfl
    rw [lhs_eq, ih ((qtick p s).2), rhs_eq]
    simp [List.cons_append]

theorem qskip_succ_back (p : Nat → Bool) :
    ∀ (n : Nat) (s : QuadState),
      qskip p (n + 1) s = silentStep p (qskip p n s) := by
  intro n
  induction n with
  | zero => intro s; rfl
  | succ n ih =>
    intro s
    show qskip p (n + 1) (silentStep p s) = _
    rw [ih (silentStep p s)]
    rfl

/-- Inside a `can_skip` window, running `m` ticks produces `m` empty expiry
sets and only advances the counter — exactly what `skip(m)` does. -/
theorem window_run (p : Nat → Bool) (w : QuadState) (d : Nat)
    (hmin : minList (allCandidates w) = some d) :
    ∀ m, m < d →
      (qrunTicks p m w).1 = List.replicate m [] ∧
      (qrunTicks p m w).2 = { w with time := w.time + m } ∧
      qskip p m w = { w with time := w.time + m } := by
  intro m
  induction m with
  | zero =>
    intro _
    refine ⟨rfl, ?_, ?_⟩ <;> (rw [Nat.add_zero]; rfl)
  | succ m ih =>
    intro hm
    obtain ⟨houts, hstate, hskip⟩ := ih (by omega)
    obtain ⟨h0, h1, h2, h3, hov⟩ := no_event_in_window w d hmin (m + 1)
      (by omega) hm
    have hq := qtick_quiet p { w with time := w.time + m } h0 h1 h2 h3 hov
    refine ⟨?_, ?_, ?_⟩
    · rw [qrunTicks_succ_back, houts, hstate, hq.1, ← List.replicate_succ']
    · rw [qrunTicks_succ_back, hstate, hq.1]
      rfl
    · rw [qskip_succ_back, hskip, hq.2]
      rfl

theorem runTicksC_succ_back :
    ∀ (n : Nat) (s : CState),
      runTicksC (n + 1) s =
        ((runTicksC n s).1 ++ [(ctick (runTicksC n s).2).1],
         (ctick (runTicksC n s).2).2) := by
  intro n
  induction n with
  | zero => intro s; rfl
  | succ n ih =>
    intro s
    have lhs_eq : runTicksC (n + 1 + 1) s =
        ((ctick s).1 :: (runTicksC (n + 1) (ctick s).2).1,
         (runTicksC (n + 1) (ctick s).2).2) := rfl
    have rhs_eq : runTicksC (n + 1) s =
        ((ctick s).1 :: (runTicksC n (ctick s).2).1,
         (runTicksC n (ctick s).2).2) := rfl
    rw [lhs_eq, ih ((ctick s).2), rhs_eq]
    simp [List.cons_append]

/-- C5: for every state of the cancellable wheel and every `m ≥ 1` such that
`can_skip()` returns `Millis(n)` with `n ≥ m`, each of `m` consecutive
`tick()` calls returns an empty expiry set, and the resulting state is
exactly the state `skip(m)` produces. -/
theorem c5_skip_safety (s : CState) (m n : Nat)
    (hc : ccanSkip s = .millis n) (_hm1 : 1 ≤ m) (hmn : m ≤ n) :
    (runTicksC m s).1 = List.replicate m [] ∧ (runTicksC m s).2 = cskip m s := by
  obtain ⟨d, hmin, hnd⟩ : ∃ d, minList (allCandidates s.wheel) = some d ∧
      n + 1 ≤ d := by
    unfold ccanSkip qcanSkip at hc
    cases hm : minList (allCandidates s.wheel) with
    | none =>
      rw [hm] at hc
      dsimp only at hc
      cases hc
    | some d =>
      rw [hm] at hc
      dsimp only at hc
      by_cases hd1 : d ≤ 1
      · rw [if_pos hd1] at hc; cases hc
      · rw [if_neg hd1] at hc
        injection hc with hc
        exact ⟨d, rfl, by omega⟩
  have key : ∀ j, j ≤ m → (runTicksC j s).1 = List.replicate j [] ∧
      (runTicksC j s).2 =
        { s with wheel := { s.wheel with time := s.wheel.time + j } } := by
    intro j
    induction j with
    | zero =>
      intro _
      refine ⟨rfl, ?_⟩
      rw [Nat.add_zero]
      rfl
    | succ j ih =>
      intro hj
      obtain ⟨houts, hstate⟩ := ih (by omega)
      obtain ⟨h0, h1, h2, h3, hov⟩ := no_event_in_window s.wheel d hmin (j + 1)
        (by omega) (by omega)
      have hq := qtick_quiet (pruneOf s) { s.wheel with time := s.wheel.time + j }
        h0 h1 h2 h3 hov
      have hct : ctick { s with wheel := { s.wheel with time := s.wheel.time + j } } =
          ([], { s with wheel := { s.wheel with time := s.wheel.time + (j + 1) } }) := by
        unfold ctick
        dsimp only
        have hpr : pruneOf { s with wheel :=
            { s.wheel with time := s.wheel.time + j } } = pruneOf s := rfl
        rw [hpr, hq.1]
        rfl
      rw [runTicksC_succ_back, houts, hstate, hct]
      exact ⟨by rw [← List.replicate_succ'], rfl⟩
  obtain ⟨houts, hstate⟩ := key m (Nat.le_refl m)
  refine ⟨houts, ?_⟩
  rw [hstate]
  unfold cskip
  rw [(window_run (pruneOf s) s.wheel d hmin m (by omega)).2.2]

/-- The concrete state for the C5 witness: one entry at delay 300
(`can_skip` answers `Millis 255`, the remaining length of `W0`'s rotation). -/
def c5state : CState := (cinsertV ⟨1, 300⟩ cnew).2

/-- Witness for C5 at a concrete state: skipping 10 of the 255 guaranteed
quiet milliseconds equals ticking 10 times, all with empty expiry sets. -/
theorem c5_skip_safety_witness :
    (ccanSkip c5state = .millis 255 ∧ 1 ≤ (10 : Nat) ∧ (10 : Nat) ≤ 255) ∧
    ((runTicksC 10 c5state).1 = List.replicate 10 [] ∧
      (runTicksC 10 c5state).2 = cskip 10 c5state) :=
  ⟨⟨by decide, by decide, by decide⟩,
   c5_skip_safety c5state 10 255 (by decide) (by decide) (by decide)⟩

/-! ## Claim C2: exact expiry of a single entry

The wheel state holding exactly one entry `(a, f)` (expiring at absolute tick
`f`) at counter `t` is `singleW a f t`; one quiet tick moves it to
`singleW a f (t+1)` and the tick reaching `f` yields the entry and leaves the
wheel empty. -/

/-- The empty wheel at counter `t`. -/
def emptyW (t : Nat) : QuadState :=
  { w0 := fun _ => [], w1 := fun _ => [], w2 := fun _ => [], w3 := fun _ => [],
    time := t, overflow := [] }

/-- The wheel holding exactly the entry `(a, f)`, placed at counter `t`. -/
def singleW (a f t : Nat) : QuadState :=
  insertAbs (emptyW t) (a, f)

/-- The wheel holding exactly the entry `(a, f)` in the overflow list. -/
def ovW (a f t : Nat) : QuadState :=
  { emptyW t with overflow := [(a, f)] }

theorem level_eq_zero_iff (t f : Nat) :
    level t f = 0 ↔ (t / 256 % 256 = f / 256 % 256 ∧
      t / 65536 % 256 = f / 65536 % 256 ∧
      t / 16777216 % 256 = f / 16777216 % 256) := by
  unfold level byteOf
  split_ifs <;> simp_all

theorem level_eq_one_iff (t f : Nat) :
    level t f = 1 ↔ (¬ t / 256 % 256 = f / 256 % 256 ∧
      t / 65536 % 256 = f / 65536 % 256 ∧
      t / 16777216 % 256 = f / 16777216 % 256) := by
  unfold level byteOf
  split_ifs <;> simp_all

theorem level_eq_two_iff (t f : Nat) :
    level t f = 2 ↔ (¬ t / 65536 % 256 = f / 65536 % 256 ∧
      t / 16777216 % 256 = f / 16777216 % 256) := by
  unfold level byteOf
  split_ifs <;> simp_all

theorem level_eq_three_iff (t f : Nat) :
    level t f = 3 ↔ ¬ t / 16777216 % 256 = f / 16777216 % 256 := by
  unfold level byteOf
  split_ifs <;> simp_all

/-- Pointwise extensionality for wheel states. -/
theorem QuadState.extPoint {x y : QuadState}
    (h0 : ∀ j, x.w0 j = y.w0 j) (h1 : ∀ j, x.w1 j = y.w1 j)
    (h2 : ∀ j, x.w2 j = y.w2 j) (h3 : ∀ j, x.w3 j = y.w3 j)
    (ht : x.time = y.time) (hov : x.overflow = y.overflow) : x = y := by
  cases x
  cases y
  congr 1 <;> first
    | exact funext h0
    | exact funext h1
    | exact funext h2
    | exact funext h3
    | exact ht
    | exact hov

/-- Cascading a slot that holds exactly one kept entry either expires it (its
remaining lower bytes are zero) or re-places it into the lower wheels. -/
theorem cascadeAt_hit (p : Nat → Bool) (k m : Nat) (s : QuadState) (a f : Nat)
    (hp : p a = true) (hslot : s.wheelAt k (byteOf s.time k) = [(a, f)]) :
    cascadeAt p k m s =
      if f % m = 0 then
        ([(a, f)], s.setWheel k (setSlot (s.wheelAt k) (byteOf s.time k) []))
      else
        ([], insertAbs (s.setWheel k (setSlot (s.wheelAt k) (byteOf s.time k) []))
          (a, f)) := by
  unfold cascadeAt
  dsimp only
  rw [hslot]
  by_cases hm : f % m = 0
  · rw [if_pos hm]
    simp [reinsertAll, hp, hm]
  · rw [if_neg hm]
    simp [reinsertAll, hp, hm]

/-- The tick that reaches the entry's expiry tick yields it (alone) and
leaves the wheel empty. -/
theorem singleW_step_fire (p : Nat → Bool) (a f t : Nat) (hp : p a = true)
    (hft : t + 1 = f) (hepoch : t / 4294967296 = f / 4294967296) :
    qtick p (singleW a f t) = ([(a, f)], emptyW (t + 1)) := by
  have hm2 := Nat.mod_mod_of_dvd (t + 1) (show (256:Nat) ∣ 65536 by norm_num)
  have hm3 := Nat.mod_mod_of_dvd (t + 1) (show (256:Nat) ∣ 16777216 by norm_num)
  have hm4 := Nat.mod_mod_of_dvd (t + 1) (show (256:Nat) ∣ 4294967296 by norm_num)
  have hm32 := Nat.mod_mod_of_dvd (t + 1) (show (65536:Nat) ∣ 16777216 by norm_num)
  have hm42 := Nat.mod_mod_of_dvd (t + 1) (show (65536:Nat) ∣ 4294967296 by norm_num)
  have hm43 := Nat.mod_mod_of_dvd (t + 1)
    (show (16777216:Nat) ∣ 4294967296 by norm_num)
  rcases level_cases t f with hk | hk | hk | hk
  · -- level 0: no byte-0 carry, the W0 drain hits the entry
    obtain ⟨hb1, hb2, hb3⟩ := (level_eq_zero_iff t f).mp hk
    have hc1 : ¬((t + 1) % 256 = 0) := by omega
    have hc2 : ¬((t + 1) % 65536 = 0) := by omega
    have hc3 : ¬((t + 1) % 16777216 = 0) := by omega
    have hc4 : ¬((t + 1) % 4294967296 = 0) := by omega
    have hslot : (t + 1) % 256 = f % 256 := by omega
    unfold singleW insertAbs
    dsimp only [emptyW]
    rw [hk]
    dsimp only [QuadState.setWheel, QuadState.wheelAt, byteOf]
    unfold qtick
    dsimp only [setSlot]
    rw [if_neg hc1, if_neg hc2, if_neg hc3, if_neg hc4]
    dsimp only
    rw [if_pos hslot]
    refine Prod.ext ?_ ?_
    · simp [List.filter, hp]
    · dsimp only
      apply QuadState.extPoint
      · intro j
        dsimp only [setSlot]
        by_cases hj : j = (t + 1) % 256
        · rw [if_pos hj]
        · rw [if_neg hj, if_neg (fun hh => hj (hh.trans hslot.symm))]
      · intro j; rfl
      · intro j; rfl
      · intro j; rfl
      · rfl
      · rfl
  · -- level 1: byte-0 carry, the W1 cascade hits the entry, rest = 0
    obtain ⟨hb1, hb2, hb3⟩ := (level_eq_one_iff t f).mp hk
    have hc1 : (t + 1) % 256 = 0 := by omega
    have hc2 : ¬((t + 1) % 65536 = 0) := by omega
    have hc3 : ¬((t + 1) % 16777216 = 0) := by omega
    have hc4 : ¬((t + 1) % 4294967296 = 0) := by omega
    have hrest : f % 256 = 0 := by omega
    have hslot : (t + 1) / 256 % 256 = f / 256 % 256 := by omega
    unfold singleW insertAbs
    dsimp only [emptyW]
    rw [hk]
    dsimp only [QuadState.setWheel, QuadState.wheelAt, byteOf]
    unfold qtick
    dsimp only [setSlot]
    rw [if_pos hc1, if_neg hc2, if_neg hc3, if_neg hc4]
    dsimp only
    rw [cascadeAt_hit p 1 256 _ a f hp
      (by dsimp only [QuadState.wheelAt, byteOf, setSlot]; rw [if_pos hslot]; rfl)]
    rw [if_pos hrest]
    dsimp only [QuadState.setWheel, QuadState.wheelAt]
    refine Prod.ext ?_ ?_
    · simp
    · dsimp only
      apply QuadState.extPoint
      · intro j; simp [setSlot]
      · intro j
        dsimp only [setSlot, byteOf]
        by_cases hj : j = (t + 1) / 256 % 256
        · rw [if_pos hj]
        · rw [if_neg hj, if_neg (fun hh => hj (hh.trans hslot.symm))]
      · intro j; rfl
      · intro j; rfl
      · rfl
      · rfl
  · -- level 2: carry through bytes 0-1, the W2 cascade hits, rest = 0
    obtain ⟨hb2, hb3⟩ := (level_eq_two_iff t f).mp hk
    have hc1 : (t + 1) % 256 = 0 := by omega
    have hc2 : (t + 1) % 65536 = 0 := by omega
    have hc3 : ¬((t + 1) % 16777216 = 0) := by omega
    have hc4 : ¬((t + 1) % 4294967296 = 0) := by omega
    have hrest : f % 65536 = 0 := by omega
    have hslot : (t + 1) / 65536 % 256 = f / 65536 % 256 := by omega
    unfold singleW insertAbs
    dsimp only [emptyW]
    rw [hk]
    dsimp only [QuadState.setWheel, QuadState.wheelAt, byteOf]
    unfold qtick
    dsimp only [setSlot]
    rw [if_pos hc1, if_pos hc2, if_neg hc3, if_neg hc4]
    dsimp only
    rw [cascadeAt_empty p 1 256 _ (by dsimp only [QuadState.wheelAt])]
    dsimp only
    rw [cascadeAt_hit p 2 65536 _ a f hp
      (by dsimp only [QuadState.wheelAt, byteOf, setSlot]; rw [if_pos hslot]; rfl)]
    rw [if_pos hrest]
    dsimp only [QuadState.setWheel, QuadState.wheelAt]
    refine Prod.ext ?_ ?_
    · simp
    · dsimp only
      apply QuadState.extPoint
      · intro j; simp [setSlot]
      · intro j; rfl
      · intro j
        dsimp only [setSlot, byteOf]
        by_cases hj : j = (t + 1) / 65536 % 256
        · rw [if_pos hj]
        · rw [if_neg hj, if_neg (fun hh => hj (hh.trans hslot.symm))]
      · intro j; rfl
      · rfl
      · rfl
  · -- level 3: carry through bytes 0-2, the W3 cascade hits, rest = 0
    have hb3 := (level_eq_three_iff t f).mp hk
    have hc1 : (t + 1) % 256 = 0 := by omega
    have hc2 : (t + 1) % 65536 = 0 := by omega
    have hc3 : (t + 1) % 16777216 = 0 := by omega
    have hc4 : ¬((t + 1) % 4294967296 = 0) := by omega
    have hrest : f % 16777216 = 0 := by omega
    have hslot : (t + 1) / 16777216 % 256 = f / 16777216 % 256 := by omega
    unfold singleW insertAbs
    dsimp only [emptyW]
    rw [hk]
    dsimp only [QuadState.setWheel, QuadState.wheelAt, byteOf]
    unfold qtick
    dsimp only [setSlot]
    rw [if_pos hc1, if_pos hc2, if_pos hc3, if_neg hc4]
    dsimp only
    rw [cascadeAt_empty p 1 256 _ (by dsimp only [QuadState.wheelAt])]
    dsimp only
    rw [cascadeAt_empty p 2 65536 _ (by dsimp only [QuadState.wheelAt])]
    dsimp only
    rw [cascadeAt_hit p 3 16777216 _ a f hp
      (by dsimp only [QuadState.wheelAt, byteOf, setSlot]; rw [if_pos hslot]; rfl)]
    rw [if_pos hrest]
    dsimp only [QuadState.setWheel, QuadState.wheelAt]
    refine Prod.ext ?_ ?_
    · simp
    · dsimp only
      apply QuadState.extPoint
      · intro j; simp [setSlot]
      · intro j; rfl
      · intro j; rfl
      · intro j
        dsimp only [setSlot, byteOf]
        by_cases hj : j = (t + 1) / 16777216 % 256
        · rw [if_pos hj]
        · rw [if_neg hj, if_neg (fun hh => hj (hh.trans hslot.symm))]
      · rfl
      · rfl

set_option maxHeartbeats 3200000 in
/-- A tick that does not reach the entry's expiry tick yields nothing and
carries the single entry along (possibly cascading it into a lower wheel). -/
theorem singleW_step_mid (p : Nat → Bool) (a f t : Nat) (hp : p a = true)
    (hlt : t + 1 < f) (hepoch : t / 4294967296 = f / 4294967296) :
    qtick p (singleW a f t) = ([], singleW a f (t + 1)) := by
  have hm2 := Nat.mod_mod_of_dvd (t + 1) (show (256:Nat) ∣ 65536 by norm_num)
  have hm3 := Nat.mod_mod_of_dvd (t + 1) (show (256:Nat) ∣ 16777216 by norm_num)
  have hm4 := Nat.mod_mod_of_dvd (t + 1) (show (256:Nat) ∣ 4294967296 by norm_num)
  have hm32 := Nat.mod_mod_of_dvd (t + 1) (show (65536:Nat) ∣ 16777216 by norm_num)
  have hm42 := Nat.mod_mod_of_dvd (t + 1) (show (65536:Nat) ∣ 4294967296 by norm_num)
  have hm43 := Nat.mod_mod_of_dvd (t + 1)
    (show (16777216:Nat) ∣ 4294967296 by norm_num)
  have hd1 : (t + 1) % 65536 = (t + 1) / 256 % 256 * 256 + (t + 1) % 256 := by omega
  have hd2 : (t + 1) % 16777216 =
      (t + 1) / 65536 % 256 * 65536 + (t + 1) % 65536 := by omega
  have hd3 : (t + 1) % 4294967296 =
      (t + 1) / 16777216 % 256 * 16777216 + (t + 1) % 16777216 := by omega
  rcases level_cases t f with hk | hk | hk | hk
  · -- level 0: the entry stays in W0, no wrap can occur
    obtain ⟨hb1, hb2, hb3⟩ := (level_eq_zero_iff t f).mp hk
    have hb0 : t % 256 + 1 < f % 256 := by omega
    have hc1 : ¬((t + 1) % 256 = 0) := by omega
    have hc2 : ¬((t + 1) % 65536 = 0) := by omega
    have hc3 : ¬((t + 1) % 16777216 = 0) := by omega
    have hc4 : ¬((t + 1) % 4294967296 = 0) := by omega
    have hk2 : level (t + 1) f = 0 := (level_eq_zero_iff _ _).mpr (by omega)
    have hmiss : ¬((t + 1) % 256 = f % 256) := by omega
    unfold singleW insertAbs
    dsimp only [emptyW]
    rw [hk, hk2]
    dsimp only [QuadState.setWheel, QuadState.wheelAt, byteOf]
    unfold qtick
    dsimp only [setSlot]
    rw [if_neg hc1, if_neg hc2, if_neg hc3, if_neg hc4]
    dsimp only
    rw [if_neg hmiss]
    refine Prod.ext ?_ ?_
    · simp
    · dsimp only
      apply QuadState.extPoint
      · intro j
        dsimp only [setSlot]
        by_cases hj : j = (t + 1) % 256
        · rw [if_pos hj, if_neg (fun hh => hmiss (hj ▸ hh))]
        · rw [if_neg hj]
      · intro j; rfl
      · intro j; rfl
      · intro j; rfl
      · rfl
      · rfl
  · -- level 1
    obtain ⟨hb1, hb2, hb3⟩ := (level_eq_one_iff t f).mp hk
    have hb1lt : t / 256 % 256 < f / 256 % 256 := by omega
    by_cases hcar : (t + 1) % 256 = 0
    · have hup : (t + 1) / 256 % 256 = t / 256 % 256 + 1 := by omega
      have hc2 : ¬((t + 1) % 65536 = 0) := by omega
      have hc3 : ¬((t + 1) % 16777216 = 0) := by omega
      have hc4 : ¬((t + 1) % 4294967296 = 0) := by omega
      by_cases hhit : (t + 1) / 256 % 256 = f / 256 % 256
      · -- carry into byte 1, cascade hits: re-place into the lower wheels
        have hrest : ¬(f % 256 = 0) := by omega
        unfold singleW insertAbs
        dsimp only [emptyW]
        rw [hk]
        dsimp only [QuadState.setWheel, QuadState.wheelAt, byteOf]
        unfold qtick
        dsimp only [setSlot]
        rw [if_pos hcar, if_neg hc2, if_neg hc3, if_neg hc4]
        dsimp only
        rw [cascadeAt_hit p 1 256 _ a f hp
          (by dsimp only [QuadState.wheelAt, byteOf, setSlot]
              rw [if_pos hhit]; rfl)]
        rw [if_neg hrest]
        dsimp only [QuadState.setWheel, QuadState.wheelAt]
        have hC : ({ w0 := setSlot (fun _ => ([] : List WEntry)) ((t + 1) % 256) [],
                     w1 := setSlot (setSlot (fun _ => []) (f / 256 % 256)
                       ([] ++ [(a, f)])) (byteOf (t + 1) 1) [],
                     w2 := fun _ => [], w3 := fun _ => [], time := t + 1,
                     overflow := [] } : QuadState) = emptyW (t + 1) := by
          apply QuadState.extPoint
          · intro j; simp [setSlot, emptyW]
          · intro j
            dsimp only [setSlot, byteOf, emptyW]
            by_cases hj : j = (t + 1) / 256 % 256
            · rw [if_pos hj]
            · rw [if_neg hj, if_neg (fun hh => hj (hh.trans hhit.symm))]
          · intro j; rfl
          · intro j; rfl
          · rfl
          · rfl
        rw [hC]
        rfl
      · -- carry into byte 1, cascade drains an empty slot: the entry stays
        have hk2 : level (t + 1) f = 1 := (level_eq_one_iff _ _).mpr
          ⟨by omega, by omega, by omega⟩
        unfold singleW insertAbs
        dsimp only [emptyW]
        rw [hk, hk2]
        dsimp only [QuadState.setWheel, QuadState.wheelAt, byteOf]
        unfold qtick
        dsimp only [setSlot]
        rw [if_pos hcar, if_neg hc2, if_neg hc3, if_neg hc4]
        dsimp only
        rw [cascadeAt_empty p 1 256 _
          (by dsimp only [QuadState.wheelAt, byteOf, setSlot]
              rw [if_neg hhit])]
        dsimp only
        refine Prod.ext ?_ ?_
        · simp
        · dsimp only
          apply QuadState.extPoint
          · intro j; simp [setSlot]
          · intro j; rfl
          · intro j; rfl
          · intro j; rfl
          · rfl
          · rfl
    · -- no carry: nothing moves
      have hc2 : ¬((t + 1) % 65536 = 0) := by omega
      have hc3 : ¬((t + 1) % 16777216 = 0) := by omega
      have hc4 : ¬((t + 1) % 4294967296 = 0) := by omega
      have hk2 : level (t + 1) f = 1 := (level_eq_one_iff _ _).mpr
        ⟨by omega, by omega, by omega⟩
      unfold singleW insertAbs
      dsimp only [emptyW]
      rw [hk, hk2]
      dsimp only [QuadState.setWheel, QuadState.wheelAt, byteOf]
      unfold qtick
      dsimp only [setSlot]
      rw [if_neg hcar, if_neg hc2, if_neg hc3, if_neg hc4]
      dsimp only
      refine Prod.ext ?_ ?_
      · simp
      · dsimp only
        apply QuadState.extPoint
        · intro j; simp [setSlot]
        · intro j; rfl
        · intro j; rfl
        · intro j; rfl
        · rfl
        · rfl
  · -- level 2
    obtain ⟨hb2, hb3⟩ := (level_eq_two_iff t f).mp hk
    have hb2lt : t / 65536 % 256 < f / 65536 % 256 := by omega
    by_cases hcar : (t + 1) % 65536 = 0
    · have hcar1 : (t + 1) % 256 = 0 := by omega
      have hup : (t + 1) / 65536 % 256 = t / 65536 % 256 + 1 := by omega
      have hc3 : ¬((t + 1) % 16777216 = 0) := by omega
      have hc4 : ¬((t + 1) % 4294967296 = 0) := by omega
      by_cases hhit : (t + 1) / 65536 % 256 = f / 65536 % 256
      · -- cascade from W2 re-places the entry
        have hrest : ¬(f % 65536 = 0) := by omega
        unfold singleW insertAbs
        dsimp only [emptyW]
        rw [hk]
        dsimp only [QuadState.setWheel, QuadState.wheelAt, byteOf]
        unfold qtick
        dsimp only [setSlot]
        rw [if_pos hcar1, if_pos hcar, if_neg hc3, if_neg hc4]
        dsimp only
        rw [cascadeAt_empty p 1 256 _ (by dsimp only [QuadState.wheelAt])]
        dsimp only
        rw [cascadeAt_hit p 2 65536 _ a f hp
          (by dsimp only [QuadState.wheelAt, byteOf, setSlot]
              rw [if_pos hhit]; rfl)]
        rw [if_neg hrest]
        dsimp only [QuadState.setWheel, QuadState.wheelAt]
        have hC : ({ w0 := setSlot (fun _ => ([] : List WEntry)) ((t + 1) % 256) [],
                     w1 := fun _ => [],
                     w2 := setSlot (setSlot (fun _ => []) (f / 65536 % 256)
                       ([] ++ [(a, f)])) (byteOf (t + 1) 2) [],
                     w3 := fun _ => [], time := t + 1,
                     overflow := [] } : QuadState) = emptyW (t + 1) := by
          apply QuadState.extPoint
          · intro j; simp [setSlot, emptyW]
          · intro j; rfl
          · intro j
            dsimp only [setSlot, byteOf, emptyW]
            by_cases hj : j = (t + 1) / 65536 % 256
            · rw [if_pos hj]
            · rw [if_neg hj, if_neg (fun hh => hj (hh.trans hhit.symm))]
          · intro j; rfl
          · rfl
          · rfl
        rw [hC]
        rfl
      · -- carry into byte 2, empty slot drained: the entry stays
        have hk2 : level (t + 1) f = 2 := (level_eq_two_iff _ _).mpr
          ⟨by omega, by omega⟩
        unfold singleW insertAbs
        dsimp only [emptyW]
        rw [hk, hk2]
        dsimp only [QuadState.setWheel, QuadState.wheelAt, byteOf]
        unfold qtick
        dsimp only [setSlot]
        rw [if_pos hcar1, if_pos hcar, if_neg hc3, if_neg hc4]
        dsimp only
        rw [cascadeAt_empty p 1 256 _ (by dsimp only [QuadState.wheelAt])]
        dsimp only
        rw [cascadeAt_empty p 2 65536 _
          (by dsimp only [QuadState.wheelAt, byteOf, setSlot]
              rw [if_neg hhit])]
        dsimp only
        refine Prod.ext ?_ ?_
        · simp
        · dsimp only
          apply QuadState.extPoint
          · intro j; simp [setSlot]
          · intro j; rfl
          · intro j; rfl
          · intro j; rfl
          · rfl
          · rfl
    · -- no carry into byte 2: at most the (empty) W1 cascade runs
      have hc4 : ¬((t + 1) % 4294967296 = 0) := by omega
      have hc3 : ¬((t + 1) % 16777216 = 0) := by omega
      have hk2 : level (t + 1) f = 2 := (level_eq_two_iff _ _).mpr
        ⟨by omega, by omega⟩
      unfold singleW insertAbs
      dsimp only [emptyW]
      rw [hk, hk2]
      dsimp only [QuadState.setWheel, QuadState.wheelAt, byteOf]
      unfold qtick
      dsimp only [setSlot]
      rw [if_neg hcar, if_neg hc3, if_neg hc4]
      dsimp only
      by_cases hcar1 : (t + 1) % 256 = 0
      · rw [if_pos hcar1]
        rw [cascadeAt_empty p 1 256 _ (by dsimp only [QuadState.wheelAt])]
        dsimp only
        refine Prod.ext ?_ ?_
        · simp
        · dsimp only
          apply QuadState.extPoint
          · intro j; simp [setSlot]
          · intro j; rfl
          · intro j; rfl
          · intro j; rfl
          · rfl
          · rfl
      · rw [if_neg hcar1]
        dsimp only
        refine Prod.ext ?_ ?_
        · simp
        · dsimp only
          apply QuadState.extPoint
          · intro j; simp [setSlot]
          · intro j; rfl
          · intro j; rfl
          · intro j; rfl
          · rfl
          · rfl
  · -- level 3
    have hb3 := (level_eq_three_iff t f).mp hk
    have hb3lt : t / 16777216 % 256 < f / 16777216 % 256 := by omega
    by_cases hcar : (t + 1) % 16777216 = 0
    · have hcar1 : (t + 1) % 256 = 0 := by omega
      have hcar2 : (t + 1) % 65536 = 0 := by omega
      have hup : (t + 1) / 16777216 % 256 = t / 16777216 % 256 + 1 := by omega
      have hc4 : ¬((t + 1) % 4294967296 = 0) := by omega
      by_cases hhit : (t + 1) / 16777216 % 256 = f / 16777216 % 256
      · have hrest : ¬(f % 16777216 = 0) := by omega
        unfold singleW insertAbs
        dsimp only [emptyW]
        rw [hk]
        dsimp only [QuadState.setWheel, QuadState.wheelAt, byteOf]
        unfold qtick
        dsimp only [setSlot]
        rw [if_pos hcar1, if_pos hcar2, if_pos hcar, if_neg hc4]
        dsimp only
        rw [cascadeAt_empty p 1 256 _ (by dsimp only [QuadState.wheelAt])]
        dsimp only
        rw [cascadeAt_empty p 2 65536 _ (by dsimp only [QuadState.wheelAt])]
        dsimp only
        rw [cascadeAt_hit p 3 16777216 _ a f hp
          (by dsimp only [QuadState.wheelAt, byteOf, setSlot]
              rw [if_pos hhit]; rfl)]
        rw [if_neg hrest]
        dsimp only [QuadState.setWheel, QuadState.wheelAt]
        have hC : ({ w0 := setSlot (fun _ => ([] : List WEntry)) ((t + 1) % 256) [],
                     w1 := fun _ => [], w2 := fun _ => [],
                     w3 := setSlot (setSlot (fun _ => []) (f / 16777216 % 256)
                       ([] ++ [(a, f)])) (byteOf (t + 1) 3) [],
                     time := t + 1, overflow := [] } : QuadState) = emptyW (t + 1) := by
          apply QuadState.extPoint
          · intro j; simp [setSlot, emptyW]
          · intro j; rfl
          · intro j; rfl
          · intro j
            dsimp only [setSlot, byteOf, emptyW]
            by_cases hj : j = (t + 1) / 16777216 % 256
            · rw [if_pos hj]
            · rw [if_neg hj, if_neg (fun hh => hj (hh.trans hhit.symm))]
          · rfl
          · rfl
        rw [hC]
        rfl
      · have hk2 : level (t + 1) f = 3 := (level_eq_three_iff _ _).mpr (by omega)
        unfold singleW insertAbs
        dsimp only [emptyW]
        rw [hk, hk2]
        dsimp only [QuadState.setWheel, QuadState.wheelAt, byteOf]
        unfold qtick
        dsimp only [setSlot]
        rw [if_pos hcar1, if_pos hcar2, if_pos hcar, if_neg hc4]
        dsimp only
        rw [cascadeAt_empty p 1 256 _ (by dsimp only [QuadState.wheelAt])]
        dsimp only
        rw [cascadeAt_empty p 2 65536 _ (by dsimp only [QuadState.wheelAt])]
        dsimp only
        rw [cascadeAt_empty p 3 16777216 _
          (by dsimp only [QuadState.wheelAt, byteOf, setSlot]
              rw [if_neg hhit])]
        dsimp only
        refine Prod.ext ?_ ?_
        · simp
        · dsimp only
          apply QuadState.extPoint
          · intro j; simp [setSlot]
          · intro j; rfl
          · intro j; rfl
          · intro j; rfl
          · rfl
          · rfl
    · -- no carry into byte 3
      have hc4 : ¬((t + 1) % 4294967296 = 0) := by omega
      have hk2 : level (t + 1) f = 3 := (level_eq_three_iff _ _).mpr (by omega)
      unfold singleW insertAbs
      dsimp only [emptyW]
      rw [hk, hk2]
      dsimp only [QuadState.setWheel, QuadState.wheelAt, byteOf]
      unfold qtick
      dsimp only [setSlot]
      rw [if_neg hcar, if_neg hc4]
      dsimp only
      by_cases hcar2 : (t + 1) % 65536 = 0
      · have hcar1 : (t + 1) % 256 = 0 := by omega
        rw [if_pos hcar1, if_pos hcar2]
        rw [cascadeAt_empty p 1 256 _ (by dsimp only [QuadState.wheelAt])]
        dsimp only
        rw [cascadeAt_empty p 2 65536 _ (by dsimp only [QuadState.wheelAt])]
        dsimp only
        refine Prod.ext ?_ ?_
        · simp
        · dsimp only
          apply QuadState.extPoint
          · intro j; simp [setSlot]
          · intro j; rfl
          · intro j; rfl
          · intro j; rfl
          · rfl
          · rfl
      · rw [if_neg hcar2]
        dsimp only
        by_cases hcar1 : (t + 1) % 256 = 0
        · rw [if_pos hcar1]
          rw [cascadeAt_empty p 1 256 _ (by dsimp only [QuadState.wheelAt])]
          dsimp only
          refine Prod.ext ?_ ?_
          · simp
          · dsimp only
            apply QuadState.extPoint
            · intro j; simp [setSlot]
            · intro j; rfl
            · intro j; rfl
            · intro j; rfl
            · rfl
            · rfl
        · rw [if_neg hcar1]
          dsimp only
          refine Prod.ext ?_ ?_
          · simp
          · dsimp only
            apply QuadState.extPoint
            · intro j; simp [setSlot]
            · intro j; rfl
            · intro j; rfl
            · intro j; rfl
            · rfl
            · rfl

/-- A quiet overflow tick: off the 2^32 boundary nothing can move, the
overflow entry stays put. -/
theorem ovW_step_quiet (p : Nat → Bool) (a f t : Nat)
    (hb : ¬((t + 1) % 4294967296 = 0)) :
    qtick p (ovW a f t) = ([], ovW a f (t + 1)) := by
  rw [(qtick_quiet p (ovW a f t) rfl (fun _ => rfl) (fun _ => rfl) (fun _ => rfl)
    (fun hc => absurd hc hb)).1]
  rfl

/-- At a 2^32 boundary an overflow entry whose expiry tick is already
reached is yielded by the promotion scan. -/
theorem ovW_scan_fire (p : Nat → Bool) (a f t : Nat) (hp : p a = true)
    (hb : (t + 1) % 4294967296 = 0) (hle : f ≤ t + 1) :
    qtick p (ovW a f t) = ([(a, f)], emptyW (t + 1)) := by
  have hc1 : (t + 1) % 256 = 0 := by omega
  have hc2 : (t + 1) % 65536 = 0 := by omega
  have hc3 : (t + 1) % 16777216 = 0 := by omega
  unfold qtick
  dsimp only [ovW, emptyW]
  rw [if_pos hc1, if_pos hc2, if_pos hc3, if_pos hb]
  rw [cascadeAt_empty p 1 256 _ (by dsimp only [QuadState.wheelAt])]
  dsimp only
  rw [cascadeAt_empty p 2 65536 _ (by dsimp only [QuadState.wheelAt])]
  dsimp only
  rw [cascadeAt_empty p 3 16777216 _ (by dsimp only [QuadState.wheelAt])]
  dsimp only [scanOverflow]
  simp only [promoteList]
  rw [if_pos hp, if_pos hle]
  refine Prod.ext (by simp) ?_
  dsimp only
  apply QuadState.extPoint
  · intro j; simp [setSlot, emptyW]
  · intro j; rfl
  · intro j; rfl
  · intro j; rfl
  · rfl
  · rfl

/-- At a 2^32 boundary an overflow entry now within wheel range is promoted
into the wheels: the state becomes the single-entry wheel state. -/
theorem ovW_scan_promote (p : Nat → Bool) (a f t : Nat) (hp : p a = true)
    (hb : (t + 1) % 4294967296 = 0) (hgt : t + 1 < f)
    (hlt : f < t + 1 + 4294967296) :
    qtick p (ovW a f t) = ([], singleW a f (t + 1)) := by
  have hc1 : (t + 1) % 256 = 0 := by omega
  have hc2 : (t + 1) % 65536 = 0 := by omega
  have hc3 : (t + 1) % 16777216 = 0 := by omega
  unfold qtick
  dsimp only [ovW, emptyW]
  rw [if_pos hc1, if_pos hc2, if_pos hc3, if_pos hb]
  rw [cascadeAt_empty p 1 256 _ (by dsimp only [QuadState.wheelAt])]
  dsimp only
  rw [cascadeAt_empty p 2 65536 _ (by dsimp only [QuadState.wheelAt])]
  dsimp only
  rw [cascadeAt_empty p 3 16777216 _ (by dsimp only [QuadState.wheelAt])]
  dsimp only [scanOverflow]
  simp only [promoteList]
  rw [if_pos hp, if_neg (by omega : ¬(f ≤ t + 1)), if_pos hlt]
  refine Prod.ext (by simp) ?_
  dsimp only
  unfold singleW
  refine congrArg (fun s => insertAbs s (a, f)) ?_
  apply QuadState.extPoint
  · intro j; simp [setSlot, emptyW]
  · intro j; rfl
  · intro j; rfl
  · intro j; rfl
  · rfl
  · rfl

/-- At a 2^32 boundary an overflow entry still beyond wheel range is kept in
the overflow list. -/
theorem ovW_scan_keep (p : Nat → Bool) (a f t : Nat) (hp : p a = true)
    (hb : (t + 1) % 4294967296 = 0) (hge : t + 1 + 4294967296 ≤ f) :
    qtick p (ovW a f t) = ([], ovW a f (t + 1)) := by
  have hc1 : (t + 1) % 256 = 0 := by omega
  have hc2 : (t + 1) % 65536 = 0 := by omega
  have hc3 : (t + 1) % 16777216 = 0 := by omega
  unfold qtick
  dsimp only [ovW, emptyW]
  rw [if_pos hc1, if_pos hc2, if_pos hc3, if_pos hb]
  rw [cascadeAt_empty p 1 256 _ (by dsimp only [QuadState.wheelAt])]
  dsimp only
  rw [cascadeAt_empty p 2 65536 _ (by dsimp only [QuadState.wheelAt])]
  dsimp only
  rw [cascadeAt_empty p 3 16777216 _ (by dsimp only [QuadState.wheelAt])]
  dsimp only [scanOverflow]
  simp only [promoteList]
  rw [if_pos hp, if_neg (by omega : ¬(f ≤ t + 1)),
    if_neg (by omega : ¬(f < t + 1 + 4294967296))]
  refine Prod.ext (by simp) ?_
  dsimp only
  apply QuadState.extPoint
  · intro j; simp [setSlot, ovW, emptyW]
  · intro j; rfl
  · intro j; rfl
  · intro j; rfl
  · rfl
  · simp [ovW, emptyW]

/-- The cancellable-wheel state right after inserting entry `e` by value
into the fresh wheel, with inner wheel state `w`: the strong handle of
allocation `0` is in `timers`, the caller holds nothing. -/
def c2st (e : Entry) (w : QuadState) : CState :=
  { wheel := w, timers := [(e.id, 0)], heap := [(0, e)], ext := [], next := 1 }

/-- The cancellable-wheel state after the entry has been yielded: `timers`
is empty, only the heap remembers the allocation. -/
def c2done (e : Entry) (w : QuadState) : CState :=
  { wheel := w, timers := [], heap := [(0, e)], ext := [], next := 1 }

/-- Allocation `0` is strongly referenced while its handle is in `timers`,
so `rc_prune` keeps it. -/
theorem pruneOf_c2st (e : Entry) (w : QuadState) : pruneOf (c2st e w) 0 = true := by
  simp [pruneOf, strongAlive, c2st]

/-- Lift a quiet inner tick to the cancellable wheel: nothing is yielded and
only the inner wheel state moves. -/
theorem ctick_c2_quiet (e : Entry) (w w' : QuadState)
    (h : qtick (pruneOf (c2st e w)) w = ([], w')) :
    ctick (c2st e w) = ([], c2st e w') := by
  unfold ctick
  rw [show (c2st e w).wheel = w from rfl, h]
  rfl

/-- Lift a firing inner tick: the weak handle upgrades (the strong handle is
still in `timers`), the entry is yielded once and its id is removed. -/
theorem ctick_c2_fire (e : Entry) (w w' : QuadState) (v : Nat)
    (h : qtick (pruneOf (c2st e w)) w = ([(0, v)], w')) :
    ctick (c2st e w) = ([(0, e)], c2done e w') := by
  unfold ctick
  rw [show (c2st e w).wheel = w from rfl, h]
  simp [c2st, c2done, takeAll, heapGet, lookupKey, eraseKey, strongAlive]

/-- Running the remaining ticks of a single in-wheel entry on the
cancellable wheel: every tick before the expiry tick yields nothing, the
expiry tick yields the entry. -/
theorem c2_run_single (e : Entry) :
    ∀ (n t : Nat), t / 4294967296 = (t + n + 1) / 4294967296 →
      runTicksC (n + 1) (c2st e (singleW 0 (t + n + 1) t)) =
        (List.replicate n [] ++ [[(0, e)]], c2done e (emptyW (t + n + 1))) := by
  intro n
  induction n with
  | zero =>
    intro t hepoch
    have hq := singleW_step_fire (pruneOf (c2st e (singleW 0 (t + 0 + 1) t))) 0
      (t + 0 + 1) t (pruneOf_c2st e _) (by omega) hepoch
    have hct := ctick_c2_fire e (singleW 0 (t + 0 + 1) t) (emptyW (t + 1))
      (t + 0 + 1) hq
    have h1 : runTicksC (0 + 1) (c2st e (singleW 0 (t + 0 + 1) t)) =
        ([(ctick (c2st e (singleW 0 (t + 0 + 1) t))).1],
         (ctick (c2st e (singleW 0 (t + 0 + 1) t))).2) := rfl
    rw [h1, hct]
    simp
  | succ n ih =>
    intro t hepoch
    have hE : t + (n + 1) + 1 = t + 1 + n + 1 := by omega
    rw [hE] at hepoch ⊢
    have hepoch1 : (t + 1) / 4294967296 = (t + 1 + n + 1) / 4294967296 := by omega
    have hq := singleW_step_mid (pruneOf (c2st e (singleW 0 (t + 1 + n + 1) t))) 0
      (t + 1 + n + 1) t (pruneOf_c2st e _) (by omega) hepoch
    have hct := ctick_c2_quiet e (singleW 0 (t + 1 + n + 1) t)
      (singleW 0 (t + 1 + n + 1) (t + 1)) hq
    have h1 : runTicksC (n + 1 + 1) (c2st e (singleW 0 (t + 1 + n + 1) t)) =
        ((ctick (c2st e (singleW 0 (t + 1 + n + 1) t))).1 ::
          (runTicksC (n + 1) (ctick (c2st e (singleW 0 (t + 1 + n + 1) t))).2).1,
         (runTicksC (n + 1) (ctick (c2st e (singleW 0 (t + 1 + n + 1) t))).2).2) := rfl
    rw [h1, hct]
    dsimp only
    rw [ih (t + 1) hepoch1]
    simp [List.replicate_succ]

/-- Running a single overflow entry to its expiry on the cancellable wheel:
quiet until each 2^32 boundary, kept or promoted at the boundary, and
yielded exactly at its expiry tick. -/
theorem c2_run_ov (e : Entry) :
    ∀ (n t : Nat), t / 4294967296 < (t + n + 1) / 4294967296 →
      runTicksC (n + 1) (c2st e (ovW 0 (t + n + 1) t)) =
        (List.replicate n [] ++ [[(0, e)]], c2done e (emptyW (t + n + 1))) := by
  intro n
  induction n with
  | zero =>
    intro t hepoch
    have hb : (t + 1) % 4294967296 = 0 := by omega
    have hq := ovW_scan_fire (pruneOf (c2st e (ovW 0 (t + 0 + 1) t))) 0
      (t + 0 + 1) t (pruneOf_c2st e _) hb (by omega)
    have hct := ctick_c2_fire e (ovW 0 (t + 0 + 1) t) (emptyW (t + 1))
      (t + 0 + 1) hq
    have h1 : runTicksC (0 + 1) (c2st e (ovW 0 (t + 0 + 1) t)) =
        ([(ctick (c2st e (ovW 0 (t + 0 + 1) t))).1],
         (ctick (c2st e (ovW 0 (t + 0 + 1) t))).2) := rfl
    rw [h1, hct]
    simp
  | succ n ih =>
    intro t hepoch
    have hE : t + (n + 1) + 1 = t + 1 + n + 1 := by omega
    rw [hE] at hepoch ⊢
    have h1 : runTicksC (n + 1 + 1) (c2st e (ovW 0 (t + 1 + n + 1) t)) =
        ((ctick (c2st e (ovW 0 (t + 1 + n + 1) t))).1 ::
          (runTicksC (n + 1) (ctick (c2st e (ovW 0 (t + 1 + n + 1) t))).2).1,
         (runTicksC (n + 1) (ctick (c2st e (ovW 0 (t + 1 + n + 1) t))).2).2) := rfl
    by_cases hb : (t + 1) % 4294967296 = 0
    · by_cases hnear : t + 1 + n + 1 < t + 1 + 4294967296
      · have hq := ovW_scan_promote (pruneOf (c2st e (ovW 0 (t + 1 + n + 1) t))) 0
          (t + 1 + n + 1) t (pruneOf_c2st e _) hb (by omega) hnear
        have hct := ctick_c2_quiet e (ovW 0 (t + 1 + n + 1) t)
          (singleW 0 (t + 1 + n + 1) (t + 1)) hq
        rw [h1, hct]
        dsimp only
        rw [c2_run_single e n (t + 1) (by omega)]
        simp [List.replicate_succ]
      · have hq := ovW_scan_keep (pruneOf (c2st e (ovW 0 (t + 1 + n + 1) t))) 0
          (t + 1 + n + 1) t (pruneOf_c2st e _) hb (by omega)
        have hct := ctick_c2_quiet e (ovW 0 (t + 1 + n + 1) t)
          (ovW 0 (t + 1 + n + 1) (t + 1)) hq
        rw [h1, hct]
        dsimp only
        rw [ih (t + 1) (by omega)]
        simp [List.replicate_succ]
    · have hq := ovW_step_quiet (pruneOf (c2st e (ovW 0 (t + 1 + n + 1) t))) 0
        (t + 1 + n + 1) t hb
      have hct := ctick_c2_quiet e (ovW 0 (t + 1 + n + 1) t)
        (ovW 0 (t + 1 + n + 1) (t + 1)) hq
      rw [h1, hct]
      dsimp only
      rw [ih (t + 1) (by omega)]
      simp [List.replicate_succ]

/-- C2: exact expiry.  For every entry `e` with a whole-millisecond delay
`d ≥ 1`, inserting `e` into the fresh cancellable wheel succeeds, and `d`
calls of `tick()` yield `e` exactly once — on the `d`-th tick and on no
earlier one.  In particular an entry with delay 1 ms is yielded by the very
next `tick()`. -/
theorem c2_exact_expiry (e : Entry) (hd : 1 ≤ e.delay) :
    (cinsertV e cnew).1 = .ok () ∧
      (runTicksC e.delay (cinsertV e cnew).2).1 =
        List.replicate (e.delay - 1) [] ++ [[(0, e)]] := by
  by_cases hbig : 4294967296 ≤ e.delay
  · have hins : cinsertV e cnew = (.ok (), c2st e (ovW 0 e.delay 0)) := by
      unfold cinsertV cnew insertWithDelay
      dsimp only
      rw [if_neg (by omega : ¬e.delay = 0), if_pos hbig]
      dsimp only
      simp [c2st, ovW, emptyW, qnew, eraseKey]
    rw [hins]
    refine ⟨rfl, ?_⟩
    obtain ⟨d, hdq⟩ : ∃ d, e.delay = d + 1 := ⟨e.delay - 1, by omega⟩
    rw [hdq]
    have hrun := c2_run_ov e d 0 (by omega)
    simp only [Nat.zero_add] at hrun
    rw [hrun]
    simp
  · have hins : cinsertV e cnew = (.ok (), c2st e (singleW 0 e.delay 0)) := by
      unfold cinsertV cnew insertWithDelay
      dsimp only
      rw [if_neg (by omega : ¬e.delay = 0), if_neg hbig]
      dsimp only
      simp [c2st, singleW, qnew, emptyW, eraseKey]
    rw [hins]
    refine ⟨rfl, ?_⟩
    obtain ⟨d, hdq⟩ : ∃ d, e.delay = d + 1 := ⟨e.delay - 1, by omega⟩
    rw [hdq]
    have hrun := c2_run_single e d 0 (by omega)
    simp only [Nat.zero_add] at hrun
    rw [hrun]
    simp

/-- Witness for C2: the entry with id 1 and delay 1 ms is yielded by the
very next tick. -/
theorem c2_exact_expiry_witness :
    1 ≤ (⟨1, 1⟩ : Entry).delay ∧
      ((cinsertV ⟨1, 1⟩ cnew).1 = .ok () ∧
        (runTicksC (⟨1, 1⟩ : Entry).delay (cinsertV ⟨1, 1⟩ cnew).2).1 =
          List.replicate ((⟨1, 1⟩ : Entry).delay - 1) [] ++ [[(0, ⟨1, 1⟩)]]) :=
  ⟨by decide, c2_exact_expiry ⟨1, 1⟩ (by decide)⟩

end Commlib
